import Mathlib

/-!
# ConcurrentHashMap: a shallow embedding of `src/ConcurrentHashMap.cpp`

The C++ class keeps `std::vector<std::list<Node*>> buckets`, a vector of
`std::shared_mutex` of the same length and a hash functor.  Nodes live on the free
store and the buckets hold raw pointers to them, so the embedding carries an explicit
free store next to the two vectors:

* an address is a natural number, `new` hands out the next unused one,
* `delete` turns the cell into a tombstone and is logged,
* dereferencing or deleting an address that is not live is a `Fault`,
* `x % 0` on `std::size_t` and `operator[]` past the end are `Fault`s as well.

Values of type `std::size_t` are natural numbers.  The code applies only `%` and `++`
below `size()` to them, neither of which can wrap, so no reduction modulo `2^64` is
needed; a hash functor is any function from keys to natural numbers.

Every member function is a function from the state before the call to
`Except Fault` of the state after it (plus its outputs).  The calls are sequential:
each one acquires its lock, does its work and releases the lock again.

Next to the member functions the file has

* the vocabulary of the statements (`bucketAt`, `entriesAt`, `allEntries`, `Reachable`,
  the invariants `Inv` and `Owned`),
* sequences of calls (`Call`, `runCalls`) and the abstract first-insert-wins map they
  are compared with (`abstractGet`, `abstractEntries`),
* monitored variants of the member functions (`insertMonitored` and so on) that record
  every bucket access together with the state the mutex of that bucket is in, read off
  the mutex vector at the moment of the access; dropping the record gives back the
  plain function on every state.
-/

set_option autoImplicit false

/-- Undefined behaviour the C++ code can run into, made explicit. -/
inductive Fault where
  /-- The divisor of `%` on `std::size_t` is zero. -/
  | divisionByZero
  /-- The index passed to `operator[]` of a vector is not below `size()`. -/
  | indexOutOfRange
  /-- A pointer that is dereferenced or deleted does not point to a live `Node`. -/
  | danglingPointer
  /-- A mutex is locked while already held by the caller, or unlocked while not held. -/
  | lockMisuse
  deriving DecidableEq, Repr

/-- The nested `struct Node` (lines 13-17): a key and a value. -/
structure Node (K V : Type) where
  key : K
  value : V
  deriving DecidableEq, Repr

/-- State of one `std::shared_mutex` as seen by the single calling thread. -/
inductive SharedMutex where
  | unlocked
  | lockedShared
  | lockedExclusive
  deriving DecidableEq, Repr

namespace SharedMutex

/-- Exclusive acquisition, `std::unique_lock` constructor. -/
def lock : SharedMutex → Except Fault SharedMutex
  | unlocked => .ok lockedExclusive
  | _ => .error .lockMisuse

/-- Exclusive release, `std::unique_lock` destructor. -/
def unlock : SharedMutex → Except Fault SharedMutex
  | lockedExclusive => .ok unlocked
  | _ => .error .lockMisuse

/-- Shared acquisition, `std::shared_lock` constructor. -/
def lock_shared : SharedMutex → Except Fault SharedMutex
  | unlocked => .ok lockedShared
  | _ => .error .lockMisuse

/-- Shared release, `std::shared_lock` destructor. -/
def unlock_shared : SharedMutex → Except Fault SharedMutex
  | lockedShared => .ok unlocked
  | _ => .error .lockMisuse

end SharedMutex

/-- The free store as far as `Node` objects are concerned.  `cells[p] = some (some n)`:
address `p` holds the live node `n`; `some none`: the node at `p` was deleted; addresses
from `cells.length` on were never handed out.  `deleted` logs the `delete` calls, most
recent first. -/
structure Heap (K V : Type) where
  cells : List (Option (Node K V))
  deleted : List Nat
  deriving DecidableEq, Repr

namespace Heap

variable {K V : Type}

/-- The free store before any allocation. -/
def empty : Heap K V := { cells := [], deleted := [] }

/-- The expression `new Node(key, value)` (line 37): the fresh address and the store
after it. -/
def alloc (h : Heap K V) (key : K) (value : V) : Nat × Heap K V :=
  (h.cells.length, { h with cells := h.cells ++ [some { key := key, value := value }] })

/-- Reading through a `Node*`: the node when the address is live. -/
def deref (h : Heap K V) (p : Nat) : Option (Node K V) :=
  match h.cells[p]? with
  | some (some node) => some node
  | _ => none

/-- The statement `delete del` (line 96). -/
def delete (h : Heap K V) (p : Nat) : Except Fault (Heap K V) :=
  match h.deref p with
  | none => .error .danglingPointer
  | some _ => .ok { cells := h.cells.set p none, deleted := p :: h.deleted }

/-- Number of `new Node` expressions evaluated so far. -/
def allocations (h : Heap K V) : Nat := h.cells.length

/-- Number of `delete` statements executed so far. -/
def deallocations (h : Heap K V) : Nat := h.deleted.length

/-- Addresses of the nodes that are allocated and not deleted, in increasing order. -/
def liveAddresses (h : Heap K V) : List Nat :=
  (List.range h.cells.length).filter (fun p => (h.deref p).isSome)

end Heap

/-- The data members of the class (lines 20-22) together with the free store their
pointers point into.  The hash functor has no state and is passed to the member
functions as `hashFunction`. -/
structure ConcurrentHashMap (K V : Type) where
  buckets : List (List Nat)
  mutexes : List SharedMutex
  heap : Heap K V
  deriving DecidableEq, Repr

/-- One line written to `std::cout` by `print`. -/
inductive Output (K V : Type) where
  /-- The line `print bucket index[i]`. -/
  | bucketHeader (i : Nat)
  /-- The line `key: k, value: v`. -/
  | entry (key : K) (value : V)
  /-- The empty line that ends `print`. -/
  | blank
  deriving DecidableEq, Repr

namespace ConcurrentHashMap

variable {K V : Type}

/-- The constructor (line 31): `num_buckets` empty lists and `num_buckets` mutexes.  It
has no check on `num_buckets` and no failing path. -/
def construct (num_buckets : Nat) : Except Fault (ConcurrentHashMap K V) :=
  .ok { buckets := List.replicate num_buckets []
        mutexes := List.replicate num_buckets SharedMutex.unlocked
        heap := Heap.empty }

/-- The expression `hashValue % v.size()` on `std::size_t`. -/
def modSize (hashValue size : Nat) : Except Fault Nat :=
  if size = 0 then .error .divisionByZero else .ok (hashValue % size)

/-- The private `getMutex` (lines 25-28).  The reference it returns is the position of
the mutex in `mutexes`. -/
def getMutex (hashFunction : K → Nat) (m : ConcurrentHashMap K V) (key : K) :
    Except Fault Nat :=
  let hashValue := hashFunction key
  modSize hashValue m.mutexes.length

/-- Apply a mutex operation to `mutexes[i]`. -/
def onMutex (op : SharedMutex → Except Fault SharedMutex) (mutexes : List SharedMutex)
    (i : Nat) : Except Fault (List SharedMutex) :=
  match mutexes[i]? with
  | none => .error .indexOutOfRange
  | some mtx =>
    match op mtx with
    | .error e => .error e
    | .ok mtx1 => .ok (mutexes.set i mtx1)

/-- The member `insert` (lines 34-41). -/
def insert (hashFunction : K → Nat) (m : ConcurrentHashMap K V) (key : K) (value : V) :
    Except Fault (ConcurrentHashMap K V) :=
  let hashValue := hashFunction key
  match modSize hashValue m.buckets.length with
  | .error e => .error e
  | .ok index =>
    let (newNode, heap1) := m.heap.alloc key value
    match getMutex hashFunction m key with
    | .error e => .error e
    | .ok mi =>
      match onMutex SharedMutex.lock m.mutexes mi with
      | .error e => .error e
      | .ok locked =>
        match m.buckets[index]? with
        | none => .error .indexOutOfRange
        | some bucket =>
          let buckets1 := m.buckets.set index (bucket ++ [newNode])
          match onMutex SharedMutex.unlock locked mi with
          | .error e => .error e
          | .ok released => .ok { buckets := buckets1, mutexes := released, heap := heap1 }

/-- The call `std::find_if(bucket.begin(), bucket.end(), pred)` with the predicate
`node->key == key` (lines 50-52): the first pointer whose node has the key, `none` for
`bucket.end()`. -/
def find_if [DecidableEq K] (h : Heap K V) (key : K) : List Nat → Except Fault (Option Nat)
  | [] => .ok none
  | p :: rest =>
    match h.deref p with
    | none => .error .danglingPointer
    | some node => if node.key = key then .ok (some p) else find_if h key rest

/-- The member `get` (lines 44-58).  `value` is the content of the output variable
of the caller before the call; the result is the state after the call, the returned flag and
the content of the output variable after the call. -/
def get [DecidableEq K] (hashFunction : K → Nat) (m : ConcurrentHashMap K V) (key : K)
    (value : V) : Except Fault (ConcurrentHashMap K V × Bool × V) :=
  let hashValue := hashFunction key
  match modSize hashValue m.buckets.length with
  | .error e => .error e
  | .ok index =>
    match getMutex hashFunction m key with
    | .error e => .error e
    | .ok mi =>
      match onMutex SharedMutex.lock_shared m.mutexes mi with
      | .error e => .error e
      | .ok locked =>
        match m.buckets[index]? with
        | none => .error .indexOutOfRange
        | some bucket =>
          match find_if m.heap key bucket with
          | .error e => .error e
          | .ok none =>
            match onMutex SharedMutex.unlock_shared locked mi with
            | .error e => .error e
            | .ok released => .ok ({ m with mutexes := released }, false, value)
          | .ok (some iter) =>
            match m.heap.deref iter with
            | none => .error .danglingPointer
            | some node =>
              match onMutex SharedMutex.unlock_shared locked mi with
              | .error e => .error e
              | .ok released => .ok ({ m with mutexes := released }, true, node.value)

/-- The call `bucket.remove_if(pred)` with the predicate `node->key == key`
(lines 68-70): the list without the pointers whose node has the key.  The pointers are
erased from the list; nothing is done to the nodes they point to. -/
def remove_if [DecidableEq K] (h : Heap K V) (key : K) : List Nat → Except Fault (List Nat)
  | [] => .ok []
  | p :: rest =>
    match h.deref p with
    | none => .error .danglingPointer
    | some node =>
      match remove_if h key rest with
      | .error e => .error e
      | .ok rest1 => if node.key = key then .ok rest1 else .ok (p :: rest1)

/-- The member `remove` (lines 61-71). -/
def remove [DecidableEq K] (hashFunction : K → Nat) (m : ConcurrentHashMap K V) (key : K) :
    Except Fault (ConcurrentHashMap K V) :=
  let hashValue := hashFunction key
  match modSize hashValue m.buckets.length with
  | .error e => .error e
  | .ok index =>
    match getMutex hashFunction m key with
    | .error e => .error e
    | .ok mi =>
      match onMutex SharedMutex.lock m.mutexes mi with
      | .error e => .error e
      | .ok locked =>
        match m.buckets[index]? with
        | none => .error .indexOutOfRange
        | some bucket =>
          match remove_if m.heap key bucket with
          | .error e => .error e
          | .ok bucket1 =>
            match onMutex SharedMutex.unlock locked mi with
            | .error e => .error e
            | .ok released =>
              .ok { m with buckets := m.buckets.set index bucket1, mutexes := released }

/-- The inner loop of `print` (lines 81-83): one line per node of the bucket. -/
def printNodes (h : Heap K V) : List Nat → Except Fault (List (Output K V))
  | [] => .ok []
  | p :: rest =>
    match h.deref p with
    | none => .error .danglingPointer
    | some node =>
      match printNodes h rest with
      | .error e => .error e
      | .ok lines => .ok (Output.entry node.key node.value :: lines)

/-- The outer loop of `print` (lines 75-84) from index `i` on, with `remaining`
iterations to go (`buckets.size() - i`). -/
def printLoop (m : ConcurrentHashMap K V) :
    Nat → Nat → Except Fault (ConcurrentHashMap K V × List (Output K V))
  | 0, _ => .ok (m, [])
  | remaining + 1, i =>
    match onMutex SharedMutex.lock_shared m.mutexes i with
    | .error e => .error e
    | .ok locked =>
      match m.buckets[i]? with
      | none => .error .indexOutOfRange
      | some bucket =>
        let header : List (Output K V) :=
          if bucket.length ≠ 0 then [Output.bucketHeader i] else []
        match printNodes m.heap bucket with
        | .error e => .error e
        | .ok lines =>
          match onMutex SharedMutex.unlock_shared locked i with
          | .error e => .error e
          | .ok released =>
            match printLoop { m with mutexes := released } remaining (i + 1) with
            | .error e => .error e
            | .ok (m1, more) => .ok (m1, header ++ lines ++ more)

/-- The member `print` (lines 74-86): the state after the call and the lines written. -/
def print (m : ConcurrentHashMap K V) :
    Except Fault (ConcurrentHashMap K V × List (Output K V)) :=
  match printLoop m m.buckets.length 0 with
  | .error e => .error e
  | .ok (m1, lines) => .ok (m1, lines ++ [Output.blank])

/-- The inner loop of the destructor (lines 93-97): every pointer is erased from the
list and its node deleted.  The result is the bucket after the loop and the free store. -/
def destroyBucket (h : Heap K V) : List Nat → Except Fault (List Nat × Heap K V)
  | [] => .ok ([], h)
  | del :: rest =>
    match h.delete del with
    | .error e => .error e
    | .ok h1 => destroyBucket h1 rest

/-- The outer loop of the destructor (lines 90-98) from index `i` on, with `remaining`
iterations to go. -/
def destroyLoop (m : ConcurrentHashMap K V) : Nat → Nat → Except Fault (ConcurrentHashMap K V)
  | 0, _ => .ok m
  | remaining + 1, i =>
    match onMutex SharedMutex.lock m.mutexes i with
    | .error e => .error e
    | .ok locked =>
      match m.buckets[i]? with
      | none => .error .indexOutOfRange
      | some bucket =>
        match destroyBucket m.heap bucket with
        | .error e => .error e
        | .ok (bucket1, heap1) =>
          match onMutex SharedMutex.unlock locked i with
          | .error e => .error e
          | .ok released =>
            destroyLoop { buckets := m.buckets.set i bucket1, mutexes := released, heap := heap1 }
              remaining (i + 1)

/-- The destructor `~ConcurrentHashMap` (lines 89-100). -/
def destroy (m : ConcurrentHashMap K V) : Except Fault (ConcurrentHashMap K V) :=
  destroyLoop m m.buckets.length 0

/-! ## Vocabulary of the statements -/

/-- The list of pointers stored in bucket `i` (empty past the end). -/
def bucketAt (m : ConcurrentHashMap K V) (i : Nat) : List Nat :=
  (m.buckets[i]?).getD []

/-- The nodes a list of pointers points to, in list order. -/
def nodesOf (h : Heap K V) (bucket : List Nat) : List (Node K V) :=
  bucket.filterMap h.deref

/-- The entries of bucket `i`, in bucket order. -/
def entriesAt (m : ConcurrentHashMap K V) (i : Nat) : List (Node K V) :=
  nodesOf m.heap (bucketAt m i)

/-- The predicate `node->key == key` on a pointer (false on a pointer that is not
live). -/
def hasKeyAt [DecidableEq K] (h : Heap K V) (key : K) (p : Nat) : Bool :=
  match h.deref p with
  | some node => decide (node.key = key)
  | none => false

/-- The key has an entry somewhere in the map. -/
def hasKey [DecidableEq K] (m : ConcurrentHashMap K V) (key : K) : Bool :=
  m.buckets.any (fun bucket => (nodesOf m.heap bucket).any (fun node => decide (node.key = key)))

/-- Number of entries with the given key in a list of nodes. -/
def countKey [DecidableEq K] (key : K) (nodes : List (Node K V)) : Nat :=
  nodes.countP (fun node => decide (node.key = key))

/-- The pointers of all buckets, in index order. -/
def storedPointers (m : ConcurrentHashMap K V) : List Nat :=
  m.buckets.flatten

/-- The states a map can be in: the result of the constructor with `num_buckets`, and
every state a completed `insert`, `get`, `remove` or `print` call leaves behind. -/
inductive Reachable [DecidableEq K] (hashFunction : K → Nat) (num_buckets : Nat) :
    ConcurrentHashMap K V → Prop where
  | construct {m : ConcurrentHashMap K V} :
      construct num_buckets = .ok m → Reachable hashFunction num_buckets m
  | insert {m m1 : ConcurrentHashMap K V} (key : K) (value : V) :
      Reachable hashFunction num_buckets m →
      insert hashFunction m key value = .ok m1 → Reachable hashFunction num_buckets m1
  | get {m m1 : ConcurrentHashMap K V} (key : K) (value : V) (found : Bool) (out : V) :
      Reachable hashFunction num_buckets m →
      get hashFunction m key value = .ok (m1, found, out) →
      Reachable hashFunction num_buckets m1
  | remove {m m1 : ConcurrentHashMap K V} (key : K) :
      Reachable hashFunction num_buckets m →
      remove hashFunction m key = .ok m1 → Reachable hashFunction num_buckets m1
  | print {m m1 : ConcurrentHashMap K V} (lines : List (Output K V)) :
      Reachable hashFunction num_buckets m →
      print m = .ok (m1, lines) → Reachable hashFunction num_buckets m1

/-- What holds of every reachable state: the two vectors keep the length given at
construction, no lock is held between calls, every stored pointer is live, and every
stored node sits in the bucket its key routes to. -/
structure Inv (hashFunction : K → Nat) (num_buckets : Nat) (m : ConcurrentHashMap K V) :
    Prop where
  size_buckets : m.buckets.length = num_buckets
  mutexes_eq : m.mutexes = List.replicate num_buckets SharedMutex.unlocked
  live : ∀ bucket ∈ m.buckets, ∀ p ∈ bucket, ∃ node, m.heap.deref p = some node
  routed : ∀ (i : Nat) (bucket : List Nat), m.buckets[i]? = some bucket →
    ∀ p ∈ bucket, ∀ node, m.heap.deref p = some node →
      hashFunction node.key % num_buckets = i

/-- The hash functor of the examples: a key of type `Nat` hashes to itself. -/
def sampleHash : Nat → Nat := fun key => key

/-- An example state: the map built by the constructor with two buckets followed by
`insert(1, 10)`, `insert(3, 30)`, `insert(1, 11)` and `insert(2, 20)` under
`sampleHash`.  Bucket 1 holds the nodes at addresses 0, 1, 2 and bucket 0 the node at
address 3. -/
def sampleMap : ConcurrentHashMap Nat Nat :=
  { buckets := [[3], [0, 1, 2]]
    mutexes := [SharedMutex.unlocked, SharedMutex.unlocked]
    heap :=
      { cells := [some { key := 1, value := 10 }, some { key := 3, value := 30 },
                  some { key := 1, value := 11 }, some { key := 2, value := 20 }]
        deleted := [] } }

/-- The lines `print` writes for bucket `i` (lines 78-83): the header when the bucket is
not empty, then one line per entry in bucket order. -/
def bucketLines (m : ConcurrentHashMap K V) (i : Nat) : List (Output K V) :=
  (if (bucketAt m i).length ≠ 0 then [Output.bucketHeader i] else [])
    ++ (entriesAt m i).map (fun node => Output.entry node.key node.value)

/-- The (key, value) pairs among the lines written, in the order written. -/
def pairsOf : List (Output K V) → List (K × V)
  | [] => []
  | Output.entry key value :: rest => (key, value) :: pairsOf rest
  | Output.bucketHeader _ :: rest => pairsOf rest
  | Output.blank :: rest => pairsOf rest

/-- The bucket indices announced by the header lines, in the order written. -/
def headersOf : List (Output K V) → List Nat
  | [] => []
  | Output.bucketHeader i :: rest => i :: headersOf rest
  | Output.entry _ _ :: rest => headersOf rest
  | Output.blank :: rest => headersOf rest

/-- All entries of the map: the buckets concatenated in index order, each bucket in its
stored order. -/
def allEntries (m : ConcurrentHashMap K V) : List (Node K V) :=
  (List.range m.buckets.length).flatMap (entriesAt m)

/-- Ownership facts of the states reachable before the destructor runs: no pointer is
stored twice (in one bucket or in two), and no node was deleted. -/
structure Owned (m : ConcurrentHashMap K V) : Prop where
  nodup : (storedPointers m).Nodup
  none_deleted : m.heap.deleted = []

/-- A mutating call of the public interface, with its arguments. -/
inductive Call (K V : Type) where
  | insert (key : K) (value : V)
  | remove (key : K)
  deriving DecidableEq, Repr

/-- Perform one call on the map. -/
def applyCall [DecidableEq K] (hashFunction : K → Nat) (m : ConcurrentHashMap K V) :
    Call K V → Except Fault (ConcurrentHashMap K V)
  | Call.insert key value => insert hashFunction m key value
  | Call.remove key => remove hashFunction m key

/-- Perform a sequence of calls, first to last, stopping at the first fault. -/
def runCalls [DecidableEq K] (hashFunction : K → Nat) (m : ConcurrentHashMap K V) :
    List (Call K V) → Except Fault (ConcurrentHashMap K V)
  | [] => .ok m
  | call :: rest =>
    match applyCall hashFunction m call with
    | .error e => .error e
    | .ok m1 => runCalls hashFunction m1 rest

/-- Whether the call is `remove(key)`. -/
def isRemoveOf [DecidableEq K] (key : K) : Call K V → Bool
  | Call.remove k => decide (k = key)
  | Call.insert _ _ => false

/-- Abstract map, in the words of the claim: the calls that come after the last
`remove(key)` of the sequence (the whole sequence when the key is never removed). -/
def sinceLastRemove [DecidableEq K] (key : K) : List (Call K V) → List (Call K V)
  | [] => []
  | call :: rest =>
    if rest.any (isRemoveOf key) then sinceLastRemove key rest
    else if isRemoveOf key call then rest
    else call :: rest

/-- Abstract map, in the words of the claim: the value of the earliest `insert(key, ·)`
of a sequence of calls, `none` when there is no such insert. -/
def earliestInsert [DecidableEq K] (key : K) : List (Call K V) → Option V
  | [] => none
  | Call.insert k value :: rest => if k = key then some value else earliestInsert key rest
  | Call.remove _ :: rest => earliestInsert key rest

/-- Abstract first-insert-wins map, in the words of the claim: what `get(key)` is to
return after a sequence of calls on a fresh map, the value of the earliest
`insert(key, ·)` after the last `remove(key)`, or `none` for not-found. -/
def abstractGet [DecidableEq K] (key : K) (calls : List (Call K V)) : Option V :=
  earliestInsert key (sinceLastRemove key calls)

/-- Abstract content after a sequence of calls on a fresh map: `insert` adds a pair at
the end, `remove` drops every pair with the key. -/
def abstractEntries [DecidableEq K] (calls : List (Call K V)) : List (Node K V) :=
  calls.foldl
    (fun acc call =>
      match call with
      | Call.insert key value => acc ++ [{ key := key, value := value }]
      | Call.remove key => acc.filter (fun node => !decide (node.key = key)))
    []

/-- Kind of access to a bucket: reading it (or a node it points to), or modifying it. -/
inductive AccessKind where
  | read
  | write
  deriving DecidableEq, Repr

/-- One access to `buckets[bucket]`, together with the state the mutex of the same index,
`mutexes[bucket]`, is in at the moment of the access (`none` when there is no such
mutex). -/
structure Access where
  bucket : Nat
  kind : AccessKind
  guard : Option SharedMutex
  deriving DecidableEq, Repr

/-- Record an access to `buckets[bucket]` made while the mutex vector is `mutexes`: the
guard is looked up in that vector at the index of the bucket. -/
def observe (mutexes : List SharedMutex) (bucket : Nat) (kind : AccessKind) : Access :=
  { bucket := bucket, kind := kind, guard := mutexes[bucket]? }

/-- The member `insert` (lines 34-41) with its bucket accesses recorded: the `push_back`
of line 40 is observed on the mutex vector as the `std::unique_lock` of line 39 left
it. -/
def insertMonitored (hashFunction : K → Nat) (m : ConcurrentHashMap K V) (key : K)
    (value : V) : Except Fault (ConcurrentHashMap K V × List Access) :=
  let hashValue := hashFunction key
  match modSize hashValue m.buckets.length with
  | .error e => .error e
  | .ok index =>
    let (newNode, heap1) := m.heap.alloc key value
    match getMutex hashFunction m key with
    | .error e => .error e
    | .ok mi =>
      match onMutex SharedMutex.lock m.mutexes mi with
      | .error e => .error e
      | .ok locked =>
        match m.buckets[index]? with
        | none => .error .indexOutOfRange
        | some bucket =>
          let buckets1 := m.buckets.set index (bucket ++ [newNode])
          let accesses := [observe locked index AccessKind.write]
          match onMutex SharedMutex.unlock locked mi with
          | .error e => .error e
          | .ok released =>
            .ok ({ buckets := buckets1, mutexes := released, heap := heap1 }, accesses)

/-- The member `get` (lines 44-58) with its bucket accesses recorded: the scan of lines
49-52 and, when an entry is found, the read of its value at line 56, both observed on
the mutex vector as the `std::shared_lock` of line 48 left it. -/
def getMonitored [DecidableEq K] (hashFunction : K → Nat) (m : ConcurrentHashMap K V)
    (key : K) (value : V) :
    Except Fault ((ConcurrentHashMap K V × Bool × V) × List Access) :=
  let hashValue := hashFunction key
  match modSize hashValue m.buckets.length with
  | .error e => .error e
  | .ok index =>
    match getMutex hashFunction m key with
    | .error e => .error e
    | .ok mi =>
      match onMutex SharedMutex.lock_shared m.mutexes mi with
      | .error e => .error e
      | .ok locked =>
        match m.buckets[index]? with
        | none => .error .indexOutOfRange
        | some bucket =>
          let scan := [observe locked index AccessKind.read]
          match find_if m.heap key bucket with
          | .error e => .error e
          | .ok none =>
            match onMutex SharedMutex.unlock_shared locked mi with
            | .error e => .error e
            | .ok released => .ok (({ m with mutexes := released }, false, value), scan)
          | .ok (some iter) =>
            match m.heap.deref iter with
            | none => .error .danglingPointer
            | some node =>
              let accesses := scan ++ [observe locked index AccessKind.read]
              match onMutex SharedMutex.unlock_shared locked mi with
              | .error e => .error e
              | .ok released =>
                .ok (({ m with mutexes := released }, true, node.value), accesses)

/-- The member `remove` (lines 61-71) with its bucket accesses recorded: the `remove_if`
of lines 66-70 is observed on the mutex vector as the `std::unique_lock` of line 65 left
it. -/
def removeMonitored [DecidableEq K] (hashFunction : K → Nat) (m : ConcurrentHashMap K V)
    (key : K) : Except Fault (ConcurrentHashMap K V × List Access) :=
  let hashValue := hashFunction key
  match modSize hashValue m.buckets.length with
  | .error e => .error e
  | .ok index =>
    match getMutex hashFunction m key with
    | .error e => .error e
    | .ok mi =>
      match onMutex SharedMutex.lock m.mutexes mi with
      | .error e => .error e
      | .ok locked =>
        match m.buckets[index]? with
        | none => .error .indexOutOfRange
        | some bucket =>
          match remove_if m.heap key bucket with
          | .error e => .error e
          | .ok bucket1 =>
            let accesses := [observe locked index AccessKind.write]
            match onMutex SharedMutex.unlock locked mi with
            | .error e => .error e
            | .ok released =>
              .ok ({ m with buckets := m.buckets.set index bucket1, mutexes := released },
                accesses)

/-- The outer loop of `print` (lines 75-84) with its bucket accesses recorded: in each
iteration the reads of lines 77-83 are observed on the mutex vector as the
`std::shared_lock` of line 76 left it. -/
def printLoopMonitored (m : ConcurrentHashMap K V) :
    Nat → Nat → Except Fault ((ConcurrentHashMap K V × List (Output K V)) × List Access)
  | 0, _ => .ok ((m, []), [])
  | remaining + 1, i =>
    match onMutex SharedMutex.lock_shared m.mutexes i with
    | .error e => .error e
    | .ok locked =>
      match m.buckets[i]? with
      | none => .error .indexOutOfRange
      | some bucket =>
        let header : List (Output K V) :=
          if bucket.length ≠ 0 then [Output.bucketHeader i] else []
        match printNodes m.heap bucket with
        | .error e => .error e
        | .ok lines =>
          let accesses := [observe locked i AccessKind.read]
          match onMutex SharedMutex.unlock_shared locked i with
          | .error e => .error e
          | .ok released =>
            match printLoopMonitored { m with mutexes := released } remaining (i + 1) with
            | .error e => .error e
            | .ok ((m1, more), later) => .ok ((m1, header ++ lines ++ more), accesses ++ later)

/-- The member `print` (lines 74-86) with its bucket accesses recorded. -/
def printMonitored (m : ConcurrentHashMap K V) :
    Except Fault ((ConcurrentHashMap K V × List (Output K V)) × List Access) :=
  match printLoopMonitored m m.buckets.length 0 with
  | .error e => .error e
  | .ok ((m1, lines), accesses) => .ok ((m1, lines ++ [Output.blank]), accesses)

/-- The outer loop of the destructor (lines 90-98) with its bucket accesses recorded: in
each iteration the erasing of lines 92-97 is observed on the mutex vector as the
`std::unique_lock` of line 91 left it. -/
def destroyLoopMonitored (m : ConcurrentHashMap K V) :
    Nat → Nat → Except Fault (ConcurrentHashMap K V × List Access)
  | 0, _ => .ok (m, [])
  | remaining + 1, i =>
    match onMutex SharedMutex.lock m.mutexes i with
    | .error e => .error e
    | .ok locked =>
      match m.buckets[i]? with
      | none => .error .indexOutOfRange
      | some bucket =>
        match destroyBucket m.heap bucket with
        | .error e => .error e
        | .ok (bucket1, heap1) =>
          let accesses := [observe locked i AccessKind.write]
          match onMutex SharedMutex.unlock locked i with
          | .error e => .error e
          | .ok released =>
            match destroyLoopMonitored
              { buckets := m.buckets.set i bucket1, mutexes := released, heap := heap1 }
              remaining (i + 1) with
            | .error e => .error e
            | .ok (m1, later) => .ok (m1, accesses ++ later)

/-- The destructor (lines 89-100) with its bucket accesses recorded. -/
def destroyMonitored (m : ConcurrentHashMap K V) :
    Except Fault (ConcurrentHashMap K V × List Access) :=
  destroyLoopMonitored m m.buckets.length 0

end ConcurrentHashMap

/-! ## Lemmas on the mutex vector -/

namespace ConcurrentHashMap

variable {K V : Type}

theorem onMutex_lock_unlocked (n i : Nat) (hi : i < n) :
    onMutex SharedMutex.lock (List.replicate n SharedMutex.unlocked) i
      = .ok ((List.replicate n SharedMutex.unlocked).set i SharedMutex.lockedExclusive) := by
  simp [onMutex, hi, SharedMutex.lock]

theorem onMutex_unlock_locked (n i : Nat) (hi : i < n) :
    onMutex SharedMutex.unlock
        ((List.replicate n SharedMutex.unlocked).set i SharedMutex.lockedExclusive) i
      = .ok (List.replicate n SharedMutex.unlocked) := by
  simp [onMutex, hi, SharedMutex.unlock]

theorem onMutex_lock_shared_unlocked (n i : Nat) (hi : i < n) :
    onMutex SharedMutex.lock_shared (List.replicate n SharedMutex.unlocked) i
      = .ok ((List.replicate n SharedMutex.unlocked).set i SharedMutex.lockedShared) := by
  simp [onMutex, hi, SharedMutex.lock_shared]

theorem onMutex_unlock_shared_locked (n i : Nat) (hi : i < n) :
    onMutex SharedMutex.unlock_shared
        ((List.replicate n SharedMutex.unlocked).set i SharedMutex.lockedShared) i
      = .ok (List.replicate n SharedMutex.unlocked) := by
  simp [onMutex, hi, SharedMutex.unlock_shared]

end ConcurrentHashMap

/-! ## Lemmas on the free store -/

namespace Heap

variable {K V : Type}

theorem deref_lt {h : Heap K V} {p : Nat} {node : Node K V} (hp : h.deref p = some node) :
    p < h.cells.length := by
  unfold deref at hp
  by_contra hlt
  have : h.cells[p]? = none := List.getElem?_eq_none (by omega)
  simp [this] at hp

theorem deref_alloc_old {h : Heap K V} {p : Nat} {node : Node K V} (key : K) (value : V)
    (hp : h.deref p = some node) : (h.alloc key value).2.deref p = some node := by
  have hlt := deref_lt hp
  unfold deref at hp ⊢
  simp only [alloc]
  rw [List.getElem?_append_left hlt]
  exact hp

theorem deref_alloc_new (h : Heap K V) (key : K) (value : V) :
    (h.alloc key value).2.deref (h.alloc key value).1 = some { key := key, value := value } := by
  simp [deref, alloc]

end Heap

/-! ## Lemmas on the member functions -/

namespace ConcurrentHashMap

variable {K V : Type}

/-- On live pointers `find_if` does not fault and is `List.find?`. -/
theorem find_if_eq [DecidableEq K] (h : Heap K V) (key : K) (bucket : List Nat)
    (hlive : ∀ p ∈ bucket, ∃ node, h.deref p = some node) :
    find_if h key bucket = .ok (bucket.find? (hasKeyAt h key)) := by
  induction bucket with
  | nil => rfl
  | cons p rest ih =>
    obtain ⟨node, hnode⟩ := hlive p (List.mem_cons_self _ _)
    have ih1 := ih (fun q hq => hlive q (List.mem_cons_of_mem _ hq))
    by_cases hk : node.key = key
    · simp [find_if, hnode, hk, hasKeyAt, List.find?_cons]
    · simp [find_if, hnode, hk, hasKeyAt, List.find?_cons, ih1]

/-- On live pointers `remove_if` does not fault and is `List.filter`. -/
theorem remove_if_eq [DecidableEq K] (h : Heap K V) (key : K) (bucket : List Nat)
    (hlive : ∀ p ∈ bucket, ∃ node, h.deref p = some node) :
    remove_if h key bucket = .ok (bucket.filter (fun p => !hasKeyAt h key p)) := by
  induction bucket with
  | nil => rfl
  | cons p rest ih =>
    obtain ⟨node, hnode⟩ := hlive p (List.mem_cons_self _ _)
    have ih1 := ih (fun q hq => hlive q (List.mem_cons_of_mem _ hq))
    by_cases hk : node.key = key
    · simp [remove_if, hnode, hk, hasKeyAt, List.filter_cons, ih1]
    · simp [remove_if, hnode, hk, hasKeyAt, List.filter_cons, ih1]

theorem nodesOf_filter [DecidableEq K] (h : Heap K V) (key : K) (bucket : List Nat) :
    nodesOf h (bucket.filter (fun p => !hasKeyAt h key p))
      = (nodesOf h bucket).filter (fun node => !decide (node.key = key)) := by
  induction bucket with
  | nil => rfl
  | cons p rest ih =>
    unfold nodesOf at ih ⊢
    cases hd : h.deref p with
    | none =>
      have hp : hasKeyAt h key p = false := by simp [hasKeyAt, hd]
      simp [List.filter_cons, hp, hd, List.filterMap_cons, ih]
    | some node =>
      by_cases hk : node.key = key
      · have hp : hasKeyAt h key p = true := by simp [hasKeyAt, hd, hk]
        simp [List.filter_cons, hp, hd, List.filterMap_cons, ih, hk]
      · have hp : hasKeyAt h key p = false := by simp [hasKeyAt, hd, hk]
        simp [List.filter_cons, hp, hd, List.filterMap_cons, ih, hk]

theorem find?_nodesOf [DecidableEq K] (h : Heap K V) (key : K) (bucket : List Nat)
    (hlive : ∀ p ∈ bucket, ∃ node, h.deref p = some node) :
    (bucket.find? (hasKeyAt h key)).bind h.deref
      = (nodesOf h bucket).find? (fun node => decide (node.key = key)) := by
  induction bucket with
  | nil => rfl
  | cons p rest ih =>
    obtain ⟨node, hnode⟩ := hlive p (List.mem_cons_self _ _)
    have ih1 := ih (fun q hq => hlive q (List.mem_cons_of_mem _ hq))
    unfold nodesOf at ih1 ⊢
    by_cases hk : node.key = key
    · simp [List.find?_cons, hasKeyAt, hnode, hk, List.filterMap_cons]
    · simp [List.find?_cons, hasKeyAt, hnode, hk, List.filterMap_cons, ih1]


theorem getElem?_bucketAt (m : ConcurrentHashMap K V) (i : Nat) (hi : i < m.buckets.length) :
    m.buckets[i]? = some (bucketAt m i) := by
  simp [bucketAt, List.getElem?_eq_getElem hi]

theorem bucketAt_mem (m : ConcurrentHashMap K V) (i : Nat) (hi : i < m.buckets.length) :
    bucketAt m i ∈ m.buckets := by
  have := getElem?_bucketAt m i hi
  exact List.getElem?_mem this

/-- Closed form of `insert` on a state that satisfies the invariant. -/
theorem insert_eq (hashFunction : K → Nat) (n : Nat) (m : ConcurrentHashMap K V)
    (hinv : Inv hashFunction n m) (hn : 0 < n) (key : K) (value : V) :
    insert hashFunction m key value = .ok
      { buckets := m.buckets.set (hashFunction key % n)
          (bucketAt m (hashFunction key % n) ++ [m.heap.cells.length])
        mutexes := m.mutexes
        heap := (m.heap.alloc key value).2 } := by
  have hlt : hashFunction key % n < n := Nat.mod_lt _ hn
  have hb := getElem?_bucketAt m (hashFunction key % n) (by rw [hinv.size_buckets]; exact hlt)
  have hn0 : n ≠ 0 := by omega
  simp only [insert, getMutex, modSize, hinv.size_buckets, hinv.mutexes_eq,
    List.length_replicate, hn0, if_false, onMutex_lock_unlocked n _ hlt, hb,
    onMutex_unlock_locked n _ hlt, Heap.alloc]

/-- Closed form of `get` on a state that satisfies the invariant: the state is returned
as it was, the result is the first entry of the routed bucket with the key. -/
theorem get_eq [DecidableEq K] (hashFunction : K → Nat) (n : Nat) (m : ConcurrentHashMap K V)
    (hinv : Inv hashFunction n m) (hn : 0 < n) (key : K) (value : V) :
    get hashFunction m key value = .ok
      (match (entriesAt m (hashFunction key % n)).find? (fun node => decide (node.key = key)) with
       | some node => (m, true, node.value)
       | none => (m, false, value)) := by
  have hlt : hashFunction key % n < n := Nat.mod_lt _ hn
  have hlt2 : hashFunction key % n < m.buckets.length := by rw [hinv.size_buckets]; exact hlt
  have hb := getElem?_bucketAt m (hashFunction key % n) hlt2
  have hn0 : n ≠ 0 := by omega
  have hlive := hinv.live _ (bucketAt_mem m _ hlt2)
  have hfind := find_if_eq m.heap key _ hlive
  have hview := find?_nodesOf m.heap key _ hlive
  have hm : ({ m with mutexes := List.replicate n SharedMutex.unlocked } : ConcurrentHashMap K V)
      = m := by
    rw [← hinv.mutexes_eq]
  simp only [get, getMutex, modSize, hinv.size_buckets, hinv.mutexes_eq,
    List.length_replicate, hn0, if_false, onMutex_lock_shared_unlocked n _ hlt, hb,
    onMutex_unlock_shared_locked n _ hlt, hfind, entriesAt]
  rw [← hview]
  cases hf : List.find? (hasKeyAt m.heap key) (bucketAt m (hashFunction key % n)) with
  | none => simp [hm]
  | some iter =>
    obtain ⟨node, hnode⟩ := hlive iter (List.mem_of_find?_eq_some hf)
    simp [hnode, hm]

/-- Closed form of `remove` on a state that satisfies the invariant. -/
theorem remove_eq [DecidableEq K] (hashFunction : K → Nat) (n : Nat)
    (m : ConcurrentHashMap K V) (hinv : Inv hashFunction n m) (hn : 0 < n) (key : K) :
    remove hashFunction m key = .ok
      { buckets := m.buckets.set (hashFunction key % n)
          ((bucketAt m (hashFunction key % n)).filter (fun p => !hasKeyAt m.heap key p))
        mutexes := m.mutexes
        heap := m.heap } := by
  have hlt : hashFunction key % n < n := Nat.mod_lt _ hn
  have hlt2 : hashFunction key % n < m.buckets.length := by rw [hinv.size_buckets]; exact hlt
  have hb := getElem?_bucketAt m (hashFunction key % n) hlt2
  have hn0 : n ≠ 0 := by omega
  have hlive := hinv.live _ (bucketAt_mem m _ hlt2)
  have hrem := remove_if_eq m.heap key _ hlive
  simp only [remove, getMutex, modSize, hinv.size_buckets, hinv.mutexes_eq,
    List.length_replicate, hn0, if_false, onMutex_lock_unlocked n _ hlt, hb,
    onMutex_unlock_locked n _ hlt, hrem]

end ConcurrentHashMap

/-! ## Lemmas on the free store -/

namespace Heap

variable {K V : Type}

theorem deref_alloc (h : Heap K V) (key : K) (value : V) (p : Nat) :
    (h.alloc key value).2.deref p
      = if p = h.cells.length then some { key := key, value := value } else h.deref p := by
  by_cases hp : p = h.cells.length
  · subst hp
    simp [deref, alloc]
  · rcases Nat.lt_or_gt_of_ne hp with hlt | hgt
    · simp only [deref, alloc, List.getElem?_append_left hlt, hp, if_false]
    · have h1 : (h.cells ++ [some ({ key := key, value := value } : Node K V)])[p]? = none :=
        List.getElem?_eq_none (by simp; omega)
      have h2 : h.cells[p]? = none := List.getElem?_eq_none (by omega)
      simp [deref, alloc, h1, h2, hp]

end Heap

/-! ## Lemmas on the member functions -/

namespace ConcurrentHashMap

variable {K V : Type}

theorem printNodes_eq (h : Heap K V) (bucket : List Nat)
    (hlive : ∀ p ∈ bucket, ∃ node, h.deref p = some node) :
    printNodes h bucket
      = .ok ((nodesOf h bucket).map (fun node => Output.entry node.key node.value)) := by
  induction bucket with
  | nil => rfl
  | cons p rest ih =>
    obtain ⟨node, hnode⟩ := hlive p (List.mem_cons_self _ _)
    have ih1 := ih (fun q hq => hlive q (List.mem_cons_of_mem _ hq))
    simp [printNodes, hnode, ih1, nodesOf, List.filterMap_cons]

theorem printLoop_state (hashFunction : K → Nat) (n : Nat) (m : ConcurrentHashMap K V)
    (hinv : Inv hashFunction n m) (remaining i : Nat) (hle : i + remaining ≤ n) :
    ∃ lines, printLoop m remaining i = .ok (m, lines) := by
  induction remaining generalizing i with
  | zero => exact ⟨[], rfl⟩
  | succ r ih =>
    have hlt : i < n := by omega
    have hlt2 : i < m.buckets.length := by rw [hinv.size_buckets]; exact hlt
    have hb := getElem?_bucketAt m i hlt2
    have hlive := hinv.live _ (bucketAt_mem m _ hlt2)
    have hm : ({ m with mutexes := List.replicate n SharedMutex.unlocked } :
        ConcurrentHashMap K V) = m := by
      rw [← hinv.mutexes_eq]
    obtain ⟨more, hmore⟩ := ih (i + 1) (by omega)
    refine ⟨(if (bucketAt m i).length ≠ 0 then [Output.bucketHeader i] else [])
      ++ (nodesOf m.heap (bucketAt m i)).map (fun node => Output.entry node.key node.value)
      ++ more, ?_⟩
    simp only [printLoop, hinv.mutexes_eq, onMutex_lock_shared_unlocked n _ hlt, hb,
      onMutex_unlock_shared_locked n _ hlt, printNodes_eq m.heap _ hlive, hm, hmore]

/-- On a state that satisfies the invariant `print` completes and returns the state
as it was. -/
theorem print_state (hashFunction : K → Nat) (n : Nat) (m : ConcurrentHashMap K V)
    (hinv : Inv hashFunction n m) : ∃ lines, print m = .ok (m, lines) := by
  obtain ⟨lines, hl⟩ := printLoop_state hashFunction n m hinv m.buckets.length 0
    (by rw [hinv.size_buckets]; omega)
  exact ⟨lines ++ [Output.blank], by simp only [print, hl]⟩

theorem insert_zero (hashFunction : K → Nat) (m : ConcurrentHashMap K V)
    (h0 : m.buckets.length = 0) (key : K) (value : V) :
    insert hashFunction m key value = .error Fault.divisionByZero := by
  simp [insert, modSize, h0]

theorem get_zero [DecidableEq K] (hashFunction : K → Nat) (m : ConcurrentHashMap K V)
    (h0 : m.buckets.length = 0) (key : K) (value : V) :
    get hashFunction m key value = .error Fault.divisionByZero := by
  simp [get, modSize, h0]

theorem remove_zero [DecidableEq K] (hashFunction : K → Nat) (m : ConcurrentHashMap K V)
    (h0 : m.buckets.length = 0) (key : K) :
    remove hashFunction m key = .error Fault.divisionByZero := by
  simp [remove, modSize, h0]

theorem inv_construct (hashFunction : K → Nat) (n : Nat) (m : ConcurrentHashMap K V)
    (hm : construct n = .ok m) : Inv hashFunction n m := by
  simp only [construct, Except.ok.injEq] at hm
  subst hm
  refine ⟨by simp, rfl, ?_, ?_⟩
  · intro bucket hb p hp
    have := List.eq_of_mem_replicate hb
    subst this
    simp at hp
  · intro i bucket hb p hp
    have := List.eq_of_mem_replicate (List.getElem?_mem hb)
    subst this
    simp at hp

theorem inv_insert (hashFunction : K → Nat) (n : Nat) (m m1 : ConcurrentHashMap K V)
    (hinv : Inv hashFunction n m) (key : K) (value : V)
    (hm : insert hashFunction m key value = .ok m1) : Inv hashFunction n m1 := by
  rcases Nat.eq_zero_or_pos n with h0 | hn
  · rw [insert_zero hashFunction m (by rw [hinv.size_buckets]; exact h0)] at hm
    cases hm
  rw [insert_eq hashFunction n m hinv hn] at hm
  simp only [Except.ok.injEq] at hm
  subst hm
  have hlt2 : hashFunction key % n < m.buckets.length := by
    rw [hinv.size_buckets]; exact Nat.mod_lt _ hn
  have hold : ∀ p ∈ bucketAt m (hashFunction key % n), ∃ node, m.heap.deref p = some node :=
    hinv.live _ (bucketAt_mem m _ hlt2)
  refine ⟨by simp [hinv.size_buckets], hinv.mutexes_eq, ?_, ?_⟩
  · intro bucket hb p hp
    rcases List.mem_or_eq_of_mem_set hb with hb1 | hb1
    · obtain ⟨node, hnode⟩ := hinv.live bucket hb1 p hp
      exact ⟨node, Heap.deref_alloc_old key value hnode⟩
    · subst hb1
      rcases List.mem_append.mp hp with hp1 | hp1
      · obtain ⟨node, hnode⟩ := hold p hp1
        exact ⟨node, Heap.deref_alloc_old key value hnode⟩
      · simp only [List.mem_singleton] at hp1
        subst hp1
        exact ⟨_, Heap.deref_alloc_new m.heap key value⟩
  · intro i bucket hb p hp node hnode
    simp only at hb hnode
    rw [Heap.deref_alloc] at hnode
    rw [List.getElem?_set] at hb
    by_cases hpn : p = m.heap.cells.length
    · -- the new node: it can only sit in the bucket it was appended to
      by_cases hi : hashFunction key % n = i
      · simp only [hpn, if_true, Option.some.injEq] at hnode
        subst hnode
        exact hi
      · simp only [hi, if_false] at hb
        obtain ⟨node0, hnode0⟩ := hinv.live bucket (List.getElem?_mem hb) p hp
        have := Heap.deref_lt hnode0
        omega
    · simp only [hpn, if_false] at hnode
      by_cases hi : hashFunction key % n = i
      · simp only [hi, if_true] at hb
        split at hb
        · simp only [Option.some.injEq] at hb
          subst hb
          rcases List.mem_append.mp hp with hp1 | hp1
          · rw [← hi]
            exact hinv.routed _ _ (getElem?_bucketAt m _ hlt2) p (hi ▸ hp1) node hnode
          · simp only [List.mem_singleton] at hp1
            exact absurd hp1 hpn
        · cases hb
      · simp only [hi, if_false] at hb
        exact hinv.routed i bucket hb p hp node hnode

theorem inv_remove [DecidableEq K] (hashFunction : K → Nat) (n : Nat)
    (m m1 : ConcurrentHashMap K V) (hinv : Inv hashFunction n m) (key : K)
    (hm : remove hashFunction m key = .ok m1) : Inv hashFunction n m1 := by
  rcases Nat.eq_zero_or_pos n with h0 | hn
  · rw [remove_zero hashFunction m (by rw [hinv.size_buckets]; exact h0)] at hm
    cases hm
  rw [remove_eq hashFunction n m hinv hn] at hm
  simp only [Except.ok.injEq] at hm
  subst hm
  have hlt2 : hashFunction key % n < m.buckets.length := by
    rw [hinv.size_buckets]; exact Nat.mod_lt _ hn
  refine ⟨by simp [hinv.size_buckets], hinv.mutexes_eq, ?_, ?_⟩
  · intro bucket hb p hp
    rcases List.mem_or_eq_of_mem_set hb with hb1 | hb1
    · exact hinv.live bucket hb1 p hp
    · subst hb1
      exact hinv.live _ (bucketAt_mem m _ hlt2) p (List.mem_of_mem_filter hp)
  · intro i bucket hb p hp node hnode
    simp only at hb hnode
    rw [List.getElem?_set] at hb
    by_cases hi : hashFunction key % n = i
    · simp only [hi, if_true] at hb
      split at hb
      · simp only [Option.some.injEq] at hb
        subst hb
        rw [← hi]
        exact hinv.routed _ _ (getElem?_bucketAt m _ hlt2) p
          (hi ▸ List.mem_of_mem_filter hp) node hnode
      · cases hb
    · simp only [hi, if_false] at hb
      exact hinv.routed i bucket hb p hp node hnode

theorem inv_get [DecidableEq K] (hashFunction : K → Nat) (n : Nat)
    (m m1 : ConcurrentHashMap K V) (hinv : Inv hashFunction n m) (key : K) (value : V)
    (found : Bool) (out : V)
    (hm : get hashFunction m key value = .ok (m1, found, out)) : m1 = m := by
  rcases Nat.eq_zero_or_pos n with h0 | hn
  · rw [get_zero hashFunction m (by rw [hinv.size_buckets]; exact h0)] at hm
    cases hm
  rw [get_eq hashFunction n m hinv hn] at hm
  split at hm <;> simp only [Except.ok.injEq, Prod.mk.injEq] at hm <;> exact hm.1.symm

/-- Every reachable state satisfies the invariant. -/
theorem Reachable.inv [DecidableEq K] {hashFunction : K → Nat} {n : Nat}
    {m : ConcurrentHashMap K V} (hr : Reachable hashFunction n m) : Inv hashFunction n m := by
  induction hr with
  | construct hm => exact inv_construct hashFunction n _ hm
  | insert key value _ hm ih => exact inv_insert hashFunction n _ _ ih key value hm
  | get key value found out _ hm ih =>
    rw [inv_get hashFunction n _ _ ih key value found out hm]; exact ih
  | remove key _ hm ih => exact inv_remove hashFunction n _ _ ih key hm
  | print lines _ hm ih =>
    obtain ⟨lines0, h0⟩ := print_state hashFunction n _ ih
    rw [h0] at hm
    simp only [Except.ok.injEq, Prod.mk.injEq] at hm
    rw [← hm.1]; exact ih


theorem getD_set (l : List (List Nat)) (i j : Nat) (x : List Nat) (hi : i < l.length) :
    ((l.set i x)[j]?).getD [] = if j = i then x else (l[j]?).getD [] := by
  rw [List.getElem?_set]
  by_cases hij : i = j
  · subst hij; simp [hi]
  · have hji : ¬ j = i := fun h => hij h.symm
    simp [hij, hji]

theorem nodesOf_alloc (h : Heap K V) (key : K) (value : V) (bucket : List Nat)
    (hlive : ∀ p ∈ bucket, ∃ node, h.deref p = some node) :
    nodesOf (h.alloc key value).2 bucket = nodesOf h bucket := by
  unfold nodesOf
  apply List.filterMap_congr
  intro p hp
  obtain ⟨node, hnode⟩ := hlive p hp
  rw [Heap.deref_alloc_old key value hnode, hnode]

theorem nodesOf_append (h : Heap K V) (b1 b2 : List Nat) :
    nodesOf h (b1 ++ b2) = nodesOf h b1 ++ nodesOf h b2 := by
  simp [nodesOf, List.filterMap_append]

theorem bucketAt_live (hashFunction : K → Nat) (n : Nat) (m : ConcurrentHashMap K V)
    (hinv : Inv hashFunction n m) (j : Nat) :
    ∀ p ∈ bucketAt m j, ∃ node, m.heap.deref p = some node := by
  by_cases hj : j < m.buckets.length
  · exact hinv.live _ (bucketAt_mem m j hj)
  · intro p hp
    have : m.buckets[j]? = none := List.getElem?_eq_none (by omega)
    simp [bucketAt, this] at hp

/-- What `insert` does to the buckets and their entries, index by index. -/
theorem insert_view (hashFunction : K → Nat) (n : Nat) (m : ConcurrentHashMap K V)
    (hinv : Inv hashFunction n m) (hn : 0 < n) (key : K) (value : V) :
    ∃ m1, insert hashFunction m key value = .ok m1
      ∧ m1.mutexes = m.mutexes
      ∧ m1.heap = (m.heap.alloc key value).2
      ∧ m1.buckets.length = m.buckets.length
      ∧ (∀ j, bucketAt m1 j = if j = hashFunction key % n
          then bucketAt m j ++ [m.heap.cells.length] else bucketAt m j)
      ∧ (∀ j, entriesAt m1 j = if j = hashFunction key % n
          then entriesAt m j ++ [{ key := key, value := value }] else entriesAt m j) := by
  have hlt2 : hashFunction key % n < m.buckets.length := by
    rw [hinv.size_buckets]; exact Nat.mod_lt _ hn
  refine ⟨_, insert_eq hashFunction n m hinv hn key value, rfl, rfl, by simp, ?_, ?_⟩
  · intro j
    simp only [bucketAt]
    rw [getD_set _ _ _ _ hlt2]
    by_cases hj : j = hashFunction key % n
    · simp [hj]
    · simp [hj]
  · intro j
    simp only [entriesAt, bucketAt]
    rw [getD_set _ _ _ _ hlt2]
    have hl := bucketAt_live hashFunction n m hinv j
    simp only [bucketAt] at hl
    by_cases hj : j = hashFunction key % n
    · subst hj
      simp only [if_true]
      rw [nodesOf_append, nodesOf_alloc _ _ _ _ hl]
      have hnew := Heap.deref_alloc_new m.heap key value
      simp only [Heap.alloc] at hnew
      simp [nodesOf, Heap.alloc, hnew]
    · simp only [hj, if_false]
      exact nodesOf_alloc _ _ _ _ hl

/-- What `remove` does to the buckets and their entries, index by index. -/
theorem remove_view [DecidableEq K] (hashFunction : K → Nat) (n : Nat)
    (m : ConcurrentHashMap K V) (hinv : Inv hashFunction n m) (hn : 0 < n) (key : K) :
    ∃ m1, remove hashFunction m key = .ok m1
      ∧ m1.mutexes = m.mutexes
      ∧ m1.heap = m.heap
      ∧ m1.buckets.length = m.buckets.length
      ∧ (∀ j, bucketAt m1 j = if j = hashFunction key % n
          then (bucketAt m j).filter (fun p => !hasKeyAt m.heap key p) else bucketAt m j)
      ∧ (∀ j, entriesAt m1 j = if j = hashFunction key % n
          then (entriesAt m j).filter (fun node => !decide (node.key = key))
          else entriesAt m j) := by
  have hlt2 : hashFunction key % n < m.buckets.length := by
    rw [hinv.size_buckets]; exact Nat.mod_lt _ hn
  refine ⟨_, remove_eq hashFunction n m hinv hn key, rfl, rfl, by simp, ?_, ?_⟩
  · intro j
    simp only [bucketAt]
    rw [getD_set _ _ _ _ hlt2]
    by_cases hj : j = hashFunction key % n
    · simp [hj]
    · simp [hj]
  · intro j
    simp only [entriesAt, bucketAt]
    rw [getD_set _ _ _ _ hlt2]
    by_cases hj : j = hashFunction key % n
    · subst hj
      simp only [if_true]
      exact nodesOf_filter m.heap key _
    · simp only [hj, if_false]

theorem hasKey_eq_false [DecidableEq K] (m : ConcurrentHashMap K V) (key : K)
    (h : hasKey m key = false) (j : Nat) : ∀ node ∈ entriesAt m j, node.key ≠ key := by
  intro node hnode
  by_cases hj : j < m.buckets.length
  · have hb := bucketAt_mem m j hj
    simp only [hasKey, List.any_eq_false] at h
    have := h _ hb
    simp only [Bool.not_eq_true, List.any_eq_false, decide_eq_true_eq] at this
    exact this node hnode
  · have : m.buckets[j]? = none := List.getElem?_eq_none (by omega)
    simp [entriesAt, bucketAt, this, nodesOf] at hnode

theorem find?_none_of_absent [DecidableEq K] (key : K) (nodes : List (Node K V))
    (h : ∀ node ∈ nodes, node.key ≠ key) :
    nodes.find? (fun node => decide (node.key = key)) = none := by
  rw [List.find?_eq_none]
  intro node hnode
  simpa using h node hnode

end ConcurrentHashMap

/-! ## The claims -/

namespace ConcurrentHashMap

variable {K V : Type}

/-- The example state is reachable: it is what the four inserts leave behind. -/
theorem sampleMap_reachable : Reachable sampleHash 2 sampleMap :=
  Reachable.insert 2 20
    (Reachable.insert 1 11
      (Reachable.insert 3 30
        (Reachable.insert 1 10 (Reachable.construct rfl) rfl) rfl) rfl) rfl

/-- C1. Insert/get round trip: on a map built with `num_buckets > 0`, for any hash
function, in any reachable state in which `key` has no entry, `insert(key, value)`
completes and the following `get(key)` returns `true` with `value`, leaving the map as
`insert` left it. -/
theorem insert_get_round_trip [DecidableEq K] (hashFunction : K → Nat) (num_buckets : Nat)
    (hn : 0 < num_buckets) (m : ConcurrentHashMap K V)
    (hr : Reachable hashFunction num_buckets m) (key : K) (value : V)
    (habsent : hasKey m key = false) (old : V) :
    ∃ m1, insert hashFunction m key value = .ok m1
      ∧ get hashFunction m1 key old = .ok (m1, true, value) := by
  have hinv := hr.inv
  obtain ⟨m1, hins, -, -, -, -, hent⟩ := insert_view hashFunction num_buckets m hinv hn key value
  have hinv1 := inv_insert hashFunction num_buckets m m1 hinv key value hins
  refine ⟨m1, hins, ?_⟩
  rw [get_eq hashFunction num_buckets m1 hinv1 hn key old, hent]
  have hnone := find?_none_of_absent key _ (hasKey_eq_false m key habsent (hashFunction key % num_buckets))
  simp [List.find?_append, hnone]

theorem insert_get_round_trip_witness :
    0 < 2 ∧ Reachable sampleHash 2 sampleMap ∧ hasKey sampleMap 5 = false
      ∧ ∃ m1, insert sampleHash sampleMap 5 50 = .ok m1
          ∧ get sampleHash m1 5 0 = .ok (m1, true, 50) :=
  ⟨by decide, sampleMap_reachable, by decide,
    insert_get_round_trip sampleHash 2 (by decide) sampleMap sampleMap_reachable 5 50
      (by decide) 0⟩

/-- C2. Remove completeness: on a map built with `num_buckets > 0`, for any hash
function, in any reachable state (whatever number of entries `key` has), `remove(key)`
completes and the following `get(key)` returns `false`, leaving the output variable and
the map as they were. -/
theorem remove_get_not_found [DecidableEq K] (hashFunction : K → Nat) (num_buckets : Nat)
    (hn : 0 < num_buckets) (m : ConcurrentHashMap K V)
    (hr : Reachable hashFunction num_buckets m) (key : K) :
    ∃ m1, remove hashFunction m key = .ok m1
      ∧ ∀ old : V, get hashFunction m1 key old = .ok (m1, false, old) := by
  have hinv := hr.inv
  obtain ⟨m1, hrem, -, -, -, -, hent⟩ := remove_view hashFunction num_buckets m hinv hn key
  have hinv1 := inv_remove hashFunction num_buckets m m1 hinv key hrem
  refine ⟨m1, hrem, fun old => ?_⟩
  rw [get_eq hashFunction num_buckets m1 hinv1 hn key old, hent]
  have hnone : List.find? (fun node => decide (node.key = key))
      ((entriesAt m (hashFunction key % num_buckets)).filter
        (fun node => !decide (node.key = key))) = none := by
    apply find?_none_of_absent
    intro node hnode
    simpa using (List.mem_filter.mp hnode).2
  simp [hnone]

theorem remove_get_not_found_witness :
    0 < 2 ∧ Reachable sampleHash 2 sampleMap ∧ countKey 1 (entriesAt sampleMap 1) = 2
      ∧ ∃ m1, remove sampleHash sampleMap 1 = .ok m1
          ∧ ∀ old : Nat, get sampleHash m1 1 old = .ok (m1, false, old) :=
  ⟨by decide, sampleMap_reachable, by decide,
    remove_get_not_found sampleHash 2 (by decide) sampleMap sampleMap_reachable 1⟩

/-- C3, as the code has it. The constructor has no failing path: with `num_buckets = 0`
it returns a map with no bucket and no mutex, and on that map `insert`, `get` and
`remove` all stop at the routing step with a division by zero. -/
theorem construct_zero_yields_empty_map [DecidableEq K] :
    (construct 0 : Except Fault (ConcurrentHashMap K V))
        = .ok { buckets := [], mutexes := [], heap := Heap.empty }
      ∧ (∀ (hashFunction : K → Nat) (key : K) (value : V),
          insert hashFunction { buckets := [], mutexes := [], heap := Heap.empty } key value
            = .error Fault.divisionByZero)
      ∧ (∀ (hashFunction : K → Nat) (key : K) (value : V),
          get hashFunction { buckets := [], mutexes := [], heap := Heap.empty } key value
            = .error Fault.divisionByZero)
      ∧ (∀ (hashFunction : K → Nat) (key : K),
          remove hashFunction
            ({ buckets := [], mutexes := [], heap := Heap.empty } : ConcurrentHashMap K V) key
            = .error Fault.divisionByZero) :=
  ⟨rfl, fun _ _ _ => rfl, fun _ _ _ => rfl, fun _ _ => rfl⟩

/-- C3, as stated, fails: the constructor called with `num_buckets = 0` does not return
an error. -/
theorem construct_zero_not_rejected :
    ¬ ∃ e, (construct 0 : Except Fault (ConcurrentHashMap Nat Nat)) = .error e := by
  rintro ⟨e, he⟩
  cases he

/-- C4, the code at the failing input. After the constructor with two buckets,
`insert(1, 10)`, `remove(1)` and the destructor, one node was allocated and none was
deleted: `remove` erased the pointer from its bucket without deleting the node, so after
`remove` the node at address 0 is live while no bucket holds a pointer, and the
destructor finds nothing to delete. -/
theorem remove_leaks_node :
    ∃ m1 m2 m3 m4 : ConcurrentHashMap Nat Nat,
      construct 2 = .ok m1
        ∧ insert sampleHash m1 1 10 = .ok m2
        ∧ remove sampleHash m2 1 = .ok m3
        ∧ destroy m3 = .ok m4
        ∧ m3.heap.liveAddresses = [0] ∧ storedPointers m3 = []
        ∧ m4.heap.allocations = 1 ∧ m4.heap.deallocations = 0
        ∧ m4.heap.liveAddresses = [0] :=
  ⟨_, _, _, _, rfl, rfl, rfl, rfl, rfl, rfl, rfl, rfl, rfl⟩


/-- C5. Append (no deduplication) policy: on a map built with `num_buckets > 0`, in a
reachable state where the first entry with key `key` in its bucket is `first`,
`insert(key, v2)` completes, the bucket is the old bucket followed by the new entry
(nothing is overwritten), its number of entries with that key grows by exactly one, and
`get(key)` returns `true` with `first.value` before and after the insert, so the result
differs from `v2` whenever `v2` differs from the original value. -/
theorem insert_existing_key_appends [DecidableEq K] (hashFunction : K → Nat)
    (num_buckets : Nat) (hn : 0 < num_buckets) (m : ConcurrentHashMap K V)
    (hr : Reachable hashFunction num_buckets m) (key : K) (first : Node K V) (v2 old : V)
    (hfirst : (entriesAt m (hashFunction key % num_buckets)).find?
      (fun node => decide (node.key = key)) = some first) :
    ∃ m1, insert hashFunction m key v2 = .ok m1
      ∧ entriesAt m1 (hashFunction key % num_buckets)
          = entriesAt m (hashFunction key % num_buckets) ++ [{ key := key, value := v2 }]
      ∧ countKey key (entriesAt m1 (hashFunction key % num_buckets))
          = countKey key (entriesAt m (hashFunction key % num_buckets)) + 1
      ∧ get hashFunction m key old = .ok (m, true, first.value)
      ∧ get hashFunction m1 key old = .ok (m1, true, first.value)
      ∧ (v2 ≠ first.value → get hashFunction m1 key old ≠ .ok (m1, true, v2)) := by
  have hinv := hr.inv
  obtain ⟨m1, hins, -, -, -, -, hent⟩ := insert_view hashFunction num_buckets m hinv hn key v2
  have hinv1 := inv_insert hashFunction num_buckets m m1 hinv key v2 hins
  have hent1 := hent (hashFunction key % num_buckets)
  simp only [if_true] at hent1
  have hget1 : get hashFunction m1 key old = .ok (m1, true, first.value) := by
    rw [get_eq hashFunction num_buckets m1 hinv1 hn key old, hent1]
    simp [List.find?_append, hfirst]
  refine ⟨m1, hins, hent1, ?_, ?_, hget1, ?_⟩
  · rw [hent1]
    simp [countKey, List.countP_append]
  · rw [get_eq hashFunction num_buckets m hinv hn key old, hfirst]
  · intro hne heq
    rw [hget1] at heq
    simp only [Except.ok.injEq, Prod.mk.injEq, true_and] at heq
    exact hne heq.symm

theorem insert_existing_key_appends_witness :
    0 < 2 ∧ Reachable sampleHash 2 sampleMap
      ∧ ∃ m1, insert sampleHash sampleMap 1 99 = .ok m1
          ∧ entriesAt m1 (sampleHash 1 % 2)
              = entriesAt sampleMap (sampleHash 1 % 2) ++ [{ key := 1, value := 99 }]
          ∧ countKey 1 (entriesAt m1 (sampleHash 1 % 2))
              = countKey 1 (entriesAt sampleMap (sampleHash 1 % 2)) + 1
          ∧ get sampleHash sampleMap 1 0 = .ok (sampleMap, true, 10)
          ∧ get sampleHash m1 1 0 = .ok (m1, true, 10)
          ∧ ((99 : Nat) ≠ 10 → get sampleHash m1 1 0 ≠ .ok (m1, true, 99)) :=
  ⟨by decide, sampleMap_reachable,
    insert_existing_key_appends sampleHash 2 (by decide) sampleMap sampleMap_reachable 1
      { key := 1, value := 10 } 99 0 rfl⟩

/-- C6. `get(key)` is the first-match lookup of bucket `hash(key) % num_buckets`: on a map
built with `num_buckets > 0`, in any reachable state, the call completes and leaves the
whole map unchanged; when the bucket splits into entries without the key, an entry with
the key and a rest, `get` returns `true` with the value of that entry; when no entry of
the bucket has the key, `get` returns `false` and the output variable keeps its content;
and `get` returns `false` only when no entry of the bucket has the key. -/
theorem get_first_match [DecidableEq K] (hashFunction : K → Nat) (num_buckets : Nat)
    (hn : 0 < num_buckets) (m : ConcurrentHashMap K V)
    (hr : Reachable hashFunction num_buckets m) (key : K) (old : V) :
    (∃ found out, get hashFunction m key old = .ok (m, found, out))
      ∧ (∀ (pre post : List (Node K V)) (node : Node K V),
          entriesAt m (hashFunction key % num_buckets) = pre ++ node :: post →
          (∀ x ∈ pre, x.key ≠ key) → node.key = key →
          get hashFunction m key old = .ok (m, true, node.value))
      ∧ ((∀ x ∈ entriesAt m (hashFunction key % num_buckets), x.key ≠ key) →
          get hashFunction m key old = .ok (m, false, old))
      ∧ (∀ m1 out, get hashFunction m key old = .ok (m1, false, out) →
          ∀ x ∈ entriesAt m (hashFunction key % num_buckets), x.key ≠ key) := by
  have hinv := hr.inv
  have hget := get_eq hashFunction num_buckets m hinv hn key old
  refine ⟨?_, ?_, ?_, ?_⟩
  · rw [hget]
    split
    · exact ⟨_, _, rfl⟩
    · exact ⟨_, _, rfl⟩
  · intro pre post node hsplit hpre hkey
    have hnone := find?_none_of_absent key pre hpre
    rw [hget, hsplit]
    simp [List.find?_append, hnone, List.find?_cons, hkey]
  · intro habsent
    rw [hget, find?_none_of_absent key _ habsent]
  · intro m1 out hfalse x hx hxk
    rw [hget] at hfalse
    split at hfalse
    · simp at hfalse
    · rename_i hnone
      rw [List.find?_eq_none] at hnone
      exact hnone x hx (by simpa using hxk)

theorem get_first_match_witness :
    0 < 2 ∧ Reachable sampleHash 2 sampleMap
      ∧ entriesAt sampleMap (sampleHash 1 % 2)
          = [] ++ { key := 1, value := 10 } :: [{ key := 3, value := 30 }, { key := 1, value := 11 }]
      ∧ get sampleHash sampleMap 1 0 = .ok (sampleMap, true, 10)
      ∧ get sampleHash sampleMap 7 0 = .ok (sampleMap, false, 0) :=
  ⟨by decide, sampleMap_reachable, rfl,
    (get_first_match sampleHash 2 (by decide) sampleMap sampleMap_reachable 1 0).2.1
      [] [{ key := 3, value := 30 }, { key := 1, value := 11 }] { key := 1, value := 10 }
      rfl (by simp) rfl,
    (get_first_match sampleHash 2 (by decide) sampleMap sampleMap_reachable 7 0).2.2.1
      (by decide)⟩

/-- C7. `remove(key)` removes all and only the entries with the key: on a map built with
`num_buckets > 0`, in any reachable state, the call completes; bucket
`hash(key) % num_buckets` afterwards is the previous bucket with the pointers to nodes
with that key filtered out (so its entries are the previous entries without those with
the key, in their previous order); every other bucket is the same list of pointers as
before; the number of buckets, the mutexes and the free store are unchanged. -/
theorem remove_filters_bucket [DecidableEq K] (hashFunction : K → Nat) (num_buckets : Nat)
    (hn : 0 < num_buckets) (m : ConcurrentHashMap K V)
    (hr : Reachable hashFunction num_buckets m) (key : K) :
    ∃ m1, remove hashFunction m key = .ok m1
      ∧ bucketAt m1 (hashFunction key % num_buckets)
          = (bucketAt m (hashFunction key % num_buckets)).filter
              (fun p => !hasKeyAt m.heap key p)
      ∧ entriesAt m1 (hashFunction key % num_buckets)
          = (entriesAt m (hashFunction key % num_buckets)).filter
              (fun node => !decide (node.key = key))
      ∧ (∀ j, j ≠ hashFunction key % num_buckets →
          bucketAt m1 j = bucketAt m j ∧ entriesAt m1 j = entriesAt m j)
      ∧ m1.buckets.length = m.buckets.length
      ∧ m1.mutexes = m.mutexes
      ∧ m1.heap = m.heap := by
  obtain ⟨m1, hrem, hmtx, hheap, hlen, hb, hent⟩ :=
    remove_view hashFunction num_buckets m hr.inv hn key
  refine ⟨m1, hrem, ?_, ?_, ?_, hlen, hmtx, hheap⟩
  · simpa using hb (hashFunction key % num_buckets)
  · simpa using hent (hashFunction key % num_buckets)
  · intro j hj
    exact ⟨by simpa [hj] using hb j, by simpa [hj] using hent j⟩

theorem remove_filters_bucket_witness :
    0 < 2 ∧ Reachable sampleHash 2 sampleMap
      ∧ ∃ m1, remove sampleHash sampleMap 1 = .ok m1
          ∧ bucketAt m1 (sampleHash 1 % 2)
              = (bucketAt sampleMap (sampleHash 1 % 2)).filter
                  (fun p => !hasKeyAt sampleMap.heap 1 p)
          ∧ entriesAt m1 (sampleHash 1 % 2)
              = (entriesAt sampleMap (sampleHash 1 % 2)).filter
                  (fun node => !decide (node.key = 1))
          ∧ (∀ j, j ≠ sampleHash 1 % 2 →
              bucketAt m1 j = bucketAt sampleMap j ∧ entriesAt m1 j = entriesAt sampleMap j)
          ∧ m1.buckets.length = sampleMap.buckets.length
          ∧ m1.mutexes = sampleMap.mutexes
          ∧ m1.heap = sampleMap.heap :=
  ⟨by decide, sampleMap_reachable,
    remove_filters_bucket sampleHash 2 (by decide) sampleMap sampleMap_reachable 1⟩

/-- C8. `remove` of an absent key is a silent no-op: on a map built with
`num_buckets > 0`, in any reachable state in which `key` has no entry, `remove(key)`
completes without a fault and returns the state it was called on. -/
theorem remove_absent_noop [DecidableEq K] (hashFunction : K → Nat) (num_buckets : Nat)
    (hn : 0 < num_buckets) (m : ConcurrentHashMap K V)
    (hr : Reachable hashFunction num_buckets m) (key : K)
    (habsent : hasKey m key = false) :
    remove hashFunction m key = .ok m := by
  have hinv := hr.inv
  have hlt2 : hashFunction key % num_buckets < m.buckets.length := by
    rw [hinv.size_buckets]; exact Nat.mod_lt _ hn
  rw [remove_eq hashFunction num_buckets m hinv hn key]
  have hkeep : (bucketAt m (hashFunction key % num_buckets)).filter
      (fun p => !hasKeyAt m.heap key p) = bucketAt m (hashFunction key % num_buckets) := by
    rw [List.filter_eq_self]
    intro p hp
    obtain ⟨node, hnode⟩ := bucketAt_live hashFunction num_buckets m hinv _ p hp
    have hmem : node ∈ entriesAt m (hashFunction key % num_buckets) := by
      simp only [entriesAt, nodesOf, List.mem_filterMap]
      exact ⟨p, hp, hnode⟩
    have hne := hasKey_eq_false m key habsent _ node hmem
    simp [hasKeyAt, hnode, hne]
  have hset : m.buckets.set (hashFunction key % num_buckets)
      (bucketAt m (hashFunction key % num_buckets)) = m.buckets := by
    have hb := getElem?_bucketAt m _ hlt2
    apply List.ext_getElem?
    intro j
    rw [List.getElem?_set]
    by_cases hj : hashFunction key % num_buckets = j
    · subst hj
      simp [hlt2, hb]
    · simp [hj]
  rw [hkeep, hset]

theorem remove_absent_noop_witness :
    0 < 2 ∧ Reachable sampleHash 2 sampleMap ∧ hasKey sampleMap 5 = false
      ∧ remove sampleHash sampleMap 5 = .ok sampleMap :=
  ⟨by decide, sampleMap_reachable, by decide,
    remove_absent_noop sampleHash 2 (by decide) sampleMap sampleMap_reachable 5 (by decide)⟩

/-- C9. `insert(key, value)` appends exactly one new entry at the end of bucket
`hash(key) % num_buckets` and changes nothing else: on a map built with
`num_buckets > 0`, in any reachable state, the call completes; that bucket afterwards is
the previous list of pointers followed by the address of the new node, and its entries
are the previous entries, in their positions, followed by `(key, value)`; every other
bucket holds the same pointers and the same entries as before; the number of buckets and
the mutexes are unchanged. -/
theorem insert_appends_one_entry [DecidableEq K] (hashFunction : K → Nat)
    (num_buckets : Nat) (hn : 0 < num_buckets) (m : ConcurrentHashMap K V)
    (hr : Reachable hashFunction num_buckets m) (key : K) (value : V) :
    ∃ m1, insert hashFunction m key value = .ok m1
      ∧ bucketAt m1 (hashFunction key % num_buckets)
          = bucketAt m (hashFunction key % num_buckets) ++ [m.heap.allocations]
      ∧ entriesAt m1 (hashFunction key % num_buckets)
          = entriesAt m (hashFunction key % num_buckets) ++ [{ key := key, value := value }]
      ∧ (∀ j, j ≠ hashFunction key % num_buckets →
          bucketAt m1 j = bucketAt m j ∧ entriesAt m1 j = entriesAt m j)
      ∧ m1.buckets.length = m.buckets.length
      ∧ m1.mutexes = m.mutexes := by
  obtain ⟨m1, hins, hmtx, -, hlen, hb, hent⟩ :=
    insert_view hashFunction num_buckets m hr.inv hn key value
  refine ⟨m1, hins, ?_, ?_, ?_, hlen, hmtx⟩
  · simpa [Heap.allocations] using hb (hashFunction key % num_buckets)
  · simpa using hent (hashFunction key % num_buckets)
  · intro j hj
    exact ⟨by simpa [hj] using hb j, by simpa [hj] using hent j⟩

theorem insert_appends_one_entry_witness :
    0 < 2 ∧ Reachable sampleHash 2 sampleMap
      ∧ ∃ m1, insert sampleHash sampleMap 4 40 = .ok m1
          ∧ bucketAt m1 (sampleHash 4 % 2)
              = bucketAt sampleMap (sampleHash 4 % 2) ++ [sampleMap.heap.allocations]
          ∧ entriesAt m1 (sampleHash 4 % 2)
              = entriesAt sampleMap (sampleHash 4 % 2) ++ [{ key := 4, value := 40 }]
          ∧ (∀ j, j ≠ sampleHash 4 % 2 →
              bucketAt m1 j = bucketAt sampleMap j ∧ entriesAt m1 j = entriesAt sampleMap j)
          ∧ m1.buckets.length = sampleMap.buckets.length
          ∧ m1.mutexes = sampleMap.mutexes :=
  ⟨by decide, sampleMap_reachable,
    insert_appends_one_entry sampleHash 2 (by decide) sampleMap sampleMap_reachable 4 40⟩

/-- C10. Routing invariant: for any hash function and any `num_buckets`, in every state
reachable from the constructor by `insert`, `get`, `remove` and `print` calls, every
entry stored in bucket `i` satisfies `hash(entry.key) % num_buckets = i`. -/
theorem routing_invariant [DecidableEq K] (hashFunction : K → Nat) (num_buckets : Nat)
    (m : ConcurrentHashMap K V) (hr : Reachable hashFunction num_buckets m) (i : Nat) :
    ∀ node ∈ entriesAt m i, hashFunction node.key % num_buckets = i := by
  intro node hnode
  have hinv := hr.inv
  simp only [entriesAt, nodesOf, List.mem_filterMap] at hnode
  obtain ⟨p, hp, hderef⟩ := hnode
  by_cases hi : i < m.buckets.length
  · exact hinv.routed i _ (getElem?_bucketAt m i hi) p hp node hderef
  · have : m.buckets[i]? = none := List.getElem?_eq_none (by omega)
    simp [bucketAt, this] at hp

theorem routing_invariant_witness :
    Reachable sampleHash 2 sampleMap
      ∧ entriesAt sampleMap 1
          = [{ key := 1, value := 10 }, { key := 3, value := 30 }, { key := 1, value := 11 }]
      ∧ ∀ node ∈ entriesAt sampleMap 1, sampleHash node.key % 2 = 1 :=
  ⟨sampleMap_reachable, rfl, routing_invariant sampleHash 2 sampleMap sampleMap_reachable 1⟩

/-- C11, as stated, fails: the example state is reachable and its bucket 1 holds two
entries with key 1. -/
theorem duplicate_key_reachable :
    ¬ (∀ m : ConcurrentHashMap Nat Nat, Reachable sampleHash 2 m →
        ∀ (i key : Nat), countKey key (entriesAt m i) ≤ 1) :=
  fun h => absurd (h sampleMap sampleMap_reachable 1 1) (by decide)

/-- C11, as the code has it. In every reachable state of a map built with
`num_buckets > 0` a key has entries in at most one bucket, the one it routes to; within
that bucket every completed `insert(key, value)`, also of a key that is already present,
adds one more entry with that key, so a bucket can hold several entries with equal
keys. -/
theorem key_in_one_bucket_with_duplicates [DecidableEq K] (hashFunction : K → Nat)
    (num_buckets : Nat) (hn : 0 < num_buckets) (m : ConcurrentHashMap K V)
    (hr : Reachable hashFunction num_buckets m) (key : K) :
    (∀ i, i ≠ hashFunction key % num_buckets → countKey key (entriesAt m i) = 0)
      ∧ ∀ value : V, ∃ m1, insert hashFunction m key value = .ok m1
          ∧ Reachable hashFunction num_buckets m1
          ∧ countKey key (entriesAt m1 (hashFunction key % num_buckets))
              = countKey key (entriesAt m (hashFunction key % num_buckets)) + 1 := by
  have hinv := hr.inv
  constructor
  · intro i hi
    simp only [countKey, List.countP_eq_zero, decide_eq_true_eq]
    intro node hnode hkey
    simp only [entriesAt, nodesOf, List.mem_filterMap] at hnode
    obtain ⟨p, hp, hderef⟩ := hnode
    by_cases hlt : i < m.buckets.length
    · have := hinv.routed i _ (getElem?_bucketAt m i hlt) p hp node hderef
      rw [hkey] at this
      exact hi this.symm
    · have : m.buckets[i]? = none := List.getElem?_eq_none (by omega)
      simp [bucketAt, this] at hp
  · intro value
    obtain ⟨m1, hins, -, -, -, -, hent⟩ :=
      insert_view hashFunction num_buckets m hinv hn key value
    refine ⟨m1, hins, Reachable.insert key value hr hins, ?_⟩
    rw [hent]
    simp [countKey, List.countP_append]

theorem key_in_one_bucket_with_duplicates_witness :
    0 < 2 ∧ Reachable sampleHash 2 sampleMap
      ∧ countKey 1 (entriesAt sampleMap (sampleHash 1 % 2)) = 2
      ∧ (∀ i, i ≠ sampleHash 1 % 2 → countKey 1 (entriesAt sampleMap i) = 0)
      ∧ ∀ value : Nat, ∃ m1, insert sampleHash sampleMap 1 value = .ok m1
          ∧ Reachable sampleHash 2 m1
          ∧ countKey 1 (entriesAt m1 (sampleHash 1 % 2))
              = countKey 1 (entriesAt sampleMap (sampleHash 1 % 2)) + 1 :=
  ⟨by decide, sampleMap_reachable, by decide,
    key_in_one_bucket_with_duplicates sampleHash 2 (by decide) sampleMap
      sampleMap_reachable 1⟩

/-- C14. The bucket vector and the mutex vector have the same length at all times: in
every state reachable from the constructor with `num_buckets` by `insert`, `get`,
`remove` and `print` calls both have length `num_buckets`. -/
theorem buckets_mutexes_same_length [DecidableEq K] (hashFunction : K → Nat)
    (num_buckets : Nat) (m : ConcurrentHashMap K V)
    (hr : Reachable hashFunction num_buckets m) :
    m.buckets.length = num_buckets ∧ m.mutexes.length = num_buckets
      ∧ m.buckets.length = m.mutexes.length := by
  have hinv := hr.inv
  have h1 := hinv.size_buckets
  have h2 : m.mutexes.length = num_buckets := by rw [hinv.mutexes_eq]; simp
  exact ⟨h1, h2, by rw [h1, h2]⟩

theorem buckets_mutexes_same_length_witness :
    Reachable sampleHash 2 sampleMap
      ∧ sampleMap.buckets.length = 2 ∧ sampleMap.mutexes.length = 2
      ∧ sampleMap.buckets.length = sampleMap.mutexes.length :=
  ⟨sampleMap_reachable,
    buckets_mutexes_same_length sampleHash 2 sampleMap sampleMap_reachable⟩

/-- Filtering out the entries with one key does not change the first match for another
key. -/
theorem find?_filter_other [DecidableEq K] (key other : K) (hne : key ≠ other)
    (nodes : List (Node K V)) :
    (nodes.filter (fun node => !decide (node.key = key))).find?
        (fun node => decide (node.key = other))
      = nodes.find? (fun node => decide (node.key = other)) := by
  induction nodes with
  | nil => rfl
  | cons node rest ih =>
    by_cases hk : node.key = other
    · simp [List.filter_cons, List.find?_cons, hk, Ne.symm hne]
    · by_cases hk2 : node.key = key
      · simp [List.filter_cons, hk2, List.find?_cons, hne, ih]
      · simp [List.filter_cons, hk2, List.find?_cons, hk, ih]

/-- C18. Key independence: on a map built with `num_buckets > 0`, in any reachable
state and for distinct keys `key` and `other` (whether or not they route to the same
bucket), `get(other)` returns the same flag and the same output value before and after
`insert(key, value)`, and before and after `remove(key)`. -/
theorem get_other_key_unchanged [DecidableEq K] (hashFunction : K → Nat)
    (num_buckets : Nat) (hn : 0 < num_buckets) (m : ConcurrentHashMap K V)
    (hr : Reachable hashFunction num_buckets m) (key other : K) (hne : key ≠ other)
    (value old : V) :
    ∃ found out, get hashFunction m other old = .ok (m, found, out)
      ∧ (∃ m1, insert hashFunction m key value = .ok m1
          ∧ get hashFunction m1 other old = .ok (m1, found, out))
      ∧ (∃ m2, remove hashFunction m key = .ok m2
          ∧ get hashFunction m2 other old = .ok (m2, found, out)) := by
  have hinv := hr.inv
  obtain ⟨m1, hins, -, -, -, -, hent1⟩ :=
    insert_view hashFunction num_buckets m hinv hn key value
  obtain ⟨m2, hrem, -, -, -, -, hent2⟩ := remove_view hashFunction num_buckets m hinv hn key
  have hinv1 := inv_insert hashFunction num_buckets m m1 hinv key value hins
  have hinv2 := inv_remove hashFunction num_buckets m m2 hinv key hrem
  have hfind1 : (entriesAt m1 (hashFunction other % num_buckets)).find?
        (fun node => decide (node.key = other))
      = (entriesAt m (hashFunction other % num_buckets)).find?
        (fun node => decide (node.key = other)) := by
    rw [hent1]
    split
    · simp [List.find?_append, hne]
    · rfl
  have hfind2 : (entriesAt m2 (hashFunction other % num_buckets)).find?
        (fun node => decide (node.key = other))
      = (entriesAt m (hashFunction other % num_buckets)).find?
        (fun node => decide (node.key = other)) := by
    rw [hent2]
    split
    · exact find?_filter_other key other hne _
    · rfl
  have hg := get_eq hashFunction num_buckets m hinv hn other old
  have hg1 := get_eq hashFunction num_buckets m1 hinv1 hn other old
  have hg2 := get_eq hashFunction num_buckets m2 hinv2 hn other old
  rw [hfind1] at hg1
  rw [hfind2] at hg2
  cases hf : (entriesAt m (hashFunction other % num_buckets)).find?
      (fun node => decide (node.key = other)) with
  | none =>
    rw [hf] at hg hg1 hg2
    exact ⟨false, old, hg, ⟨m1, hins, hg1⟩, ⟨m2, hrem, hg2⟩⟩
  | some node =>
    rw [hf] at hg hg1 hg2
    exact ⟨true, node.value, hg, ⟨m1, hins, hg1⟩, ⟨m2, hrem, hg2⟩⟩

theorem get_other_key_unchanged_witness :
    0 < 2 ∧ Reachable sampleHash 2 sampleMap ∧ (1 : Nat) ≠ 3
      ∧ sampleHash 1 % 2 = sampleHash 3 % 2
      ∧ ∃ found out, get sampleHash sampleMap 3 0 = .ok (sampleMap, found, out)
          ∧ (∃ m1, insert sampleHash sampleMap 1 99 = .ok m1
              ∧ get sampleHash m1 3 0 = .ok (m1, found, out))
          ∧ (∃ m2, remove sampleHash sampleMap 1 = .ok m2
              ∧ get sampleHash m2 3 0 = .ok (m2, found, out)) :=
  ⟨by decide, sampleMap_reachable, by decide, by decide,
    get_other_key_unchanged sampleHash 2 (by decide) sampleMap sampleMap_reachable 1 3
      (by decide) 99 0⟩

/-- C19. Index safety: in every reachable state of a map built with `num_buckets > 0`,
for every key and whatever its hash value, the divisor of the modulus in `insert`, `get`,
`remove` and `getMutex` is not zero, the computed index is the same for the bucket
vector and the mutex vector and lies strictly below the length of both, so both
accesses hit an element and the three calls complete without a fault; with
`num_buckets = 0` the same routing step divides by zero in all four. -/
theorem index_safety [DecidableEq K] (hashFunction : K → Nat) (num_buckets : Nat)
    (m : ConcurrentHashMap K V) (hr : Reachable hashFunction num_buckets m) (key : K) :
    (0 < num_buckets →
        m.buckets.length ≠ 0 ∧ m.mutexes.length ≠ 0
          ∧ modSize (hashFunction key) m.buckets.length
              = .ok (hashFunction key % num_buckets)
          ∧ getMutex hashFunction m key = .ok (hashFunction key % num_buckets)
          ∧ hashFunction key % num_buckets < m.buckets.length
          ∧ hashFunction key % num_buckets < m.mutexes.length
          ∧ (∃ bucket, m.buckets[hashFunction key % num_buckets]? = some bucket)
          ∧ (∃ mtx, m.mutexes[hashFunction key % num_buckets]? = some mtx)
          ∧ (∀ value : V, ∃ m1, insert hashFunction m key value = .ok m1)
          ∧ (∀ old : V, ∃ found out, get hashFunction m key old = .ok (m, found, out))
          ∧ (∃ m1, remove hashFunction m key = .ok m1))
      ∧ (num_buckets = 0 →
          modSize (hashFunction key) m.buckets.length = .error Fault.divisionByZero
            ∧ getMutex hashFunction m key = .error Fault.divisionByZero
            ∧ (∀ value : V, insert hashFunction m key value = .error Fault.divisionByZero)
            ∧ (∀ old : V, get hashFunction m key old = .error Fault.divisionByZero)
            ∧ remove hashFunction m key = .error Fault.divisionByZero) := by
  have hinv := hr.inv
  have hb := hinv.size_buckets
  have hmx : m.mutexes.length = num_buckets := by rw [hinv.mutexes_eq]; simp
  constructor
  · intro hn
    have hlt : hashFunction key % num_buckets < num_buckets := Nat.mod_lt _ hn
    have hn0 : num_buckets ≠ 0 := by omega
    refine ⟨by omega, by omega, by simp [modSize, hb, hn0], by simp [getMutex, modSize, hmx, hn0],
      by omega, by omega, ⟨_, getElem?_bucketAt m _ (by omega)⟩,
      ⟨_, List.getElem?_eq_getElem (by omega)⟩, ?_, ?_, ?_⟩
    · intro value
      exact ⟨_, insert_eq hashFunction num_buckets m hinv hn key value⟩
    · intro old
      rw [get_eq hashFunction num_buckets m hinv hn key old]
      split
      · exact ⟨_, _, rfl⟩
      · exact ⟨_, _, rfl⟩
    · exact ⟨_, remove_eq hashFunction num_buckets m hinv hn key⟩
  · intro h0
    have hb0 : m.buckets.length = 0 := by omega
    refine ⟨by simp [modSize, hb0], by simp [getMutex, modSize, hmx, h0],
      fun value => insert_zero hashFunction m hb0 key value,
      fun old => get_zero hashFunction m hb0 key old, remove_zero hashFunction m hb0 key⟩

theorem index_safety_witness :
    Reachable sampleHash 2 sampleMap
      ∧ getMutex sampleHash sampleMap 7 = .ok 1
      ∧ 1 < sampleMap.buckets.length ∧ 1 < sampleMap.mutexes.length := by
  have h := (index_safety sampleHash 2 sampleMap sampleMap_reachable 7).1 (by decide)
  exact ⟨sampleMap_reachable, h.2.2.2.1, h.2.2.2.2.1, h.2.2.2.2.2.1⟩

theorem pairsOf_append (a b : List (Output K V)) :
    pairsOf (a ++ b) = pairsOf a ++ pairsOf b := by
  induction a with
  | nil => rfl
  | cons x rest ih => cases x <;> simp [pairsOf, ih]

theorem pairsOf_entries (nodes : List (Node K V)) :
    pairsOf (nodes.map (fun node => (Output.entry node.key node.value : Output K V)))
      = nodes.map (fun node => (node.key, node.value)) := by
  induction nodes with
  | nil => rfl
  | cons x rest ih => simp [pairsOf, ih]

theorem pairsOf_bucketLines (m : ConcurrentHashMap K V) (i : Nat) :
    pairsOf (bucketLines m i) = (entriesAt m i).map (fun node => (node.key, node.value)) := by
  unfold bucketLines
  rw [pairsOf_append, pairsOf_entries]
  split <;> simp [pairsOf]

theorem pairsOf_flatMap (m : ConcurrentHashMap K V) (indices : List Nat) :
    pairsOf (indices.flatMap (bucketLines m))
      = (indices.flatMap (entriesAt m)).map (fun node => (node.key, node.value)) := by
  induction indices with
  | nil => rfl
  | cons i rest ih =>
    simp only [List.flatMap_cons, pairsOf_append, pairsOf_bucketLines, ih, List.map_append]

/-- Closed form of the loop of `print` on a state that satisfies the invariant. -/
theorem printLoop_eq (hashFunction : K → Nat) (n : Nat) (m : ConcurrentHashMap K V)
    (hinv : Inv hashFunction n m) (remaining i : Nat) (hle : i + remaining ≤ n) :
    printLoop m remaining i = .ok (m, (List.range' i remaining).flatMap (bucketLines m)) := by
  induction remaining generalizing i with
  | zero => rfl
  | succ r ih =>
    have hlt : i < n := by omega
    have hlt2 : i < m.buckets.length := by rw [hinv.size_buckets]; exact hlt
    have hb := getElem?_bucketAt m i hlt2
    have hlive := hinv.live _ (bucketAt_mem m _ hlt2)
    have hm : ({ m with mutexes := List.replicate n SharedMutex.unlocked } :
        ConcurrentHashMap K V) = m := by
      rw [← hinv.mutexes_eq]
    have hmore := ih (i + 1) (by omega)
    simp only [printLoop, hinv.mutexes_eq, onMutex_lock_shared_unlocked n _ hlt, hb,
      onMutex_unlock_shared_locked n _ hlt, printNodes_eq m.heap _ hlive, hm, hmore,
      List.range'_succ, List.flatMap_cons, bucketLines, entriesAt, List.append_assoc]

/-- Closed form of `print` on a state that satisfies the invariant. -/
theorem print_eq (hashFunction : K → Nat) (n : Nat) (m : ConcurrentHashMap K V)
    (hinv : Inv hashFunction n m) :
    print m = .ok (m, (List.range n).flatMap (bucketLines m) ++ [Output.blank]) := by
  have h := printLoop_eq hashFunction n m hinv m.buckets.length 0
    (by rw [hinv.size_buckets]; omega)
  rw [hinv.size_buckets] at h
  simp only [print, h, hinv.size_buckets, List.range_eq_range']

/-- Running through the indices of a list and looking each element up is running
through the list. -/
theorem flatMap_range_getD {α : Type} (f : List Nat → List α) (l : List (List Nat)) :
    (List.range l.length).flatMap (fun i => f ((l[i]?).getD [])) = l.flatMap f := by
  induction l using List.reverseRecOn with
  | nil => rfl
  | append_singleton l a ih =>
    rw [List.length_append, List.length_singleton, List.range_succ, List.flatMap_append,
      List.flatMap_append, ← ih]
    congr 1
    · apply List.flatMap_congr
      intro i hi
      rw [List.mem_range] at hi
      rw [List.getElem?_append_left hi]
    · simp

/-- The entries of the map are the nodes of the buckets, bucket after bucket. -/
theorem allEntries_eq_flatMap (m : ConcurrentHashMap K V) :
    allEntries m = m.buckets.flatMap (nodesOf m.heap) :=
  flatMap_range_getD (nodesOf m.heap) m.buckets

/-- The entries of the map are the nodes of the stored pointers. -/
theorem allEntries_eq_nodesOf (m : ConcurrentHashMap K V) :
    allEntries m = nodesOf m.heap (storedPointers m) := by
  rw [allEntries_eq_flatMap]
  simp only [storedPointers, nodesOf, List.filterMap_flatten]
  rfl

/-- On live pointers there is one node per pointer. -/
theorem length_nodesOf (h : Heap K V) (bucket : List Nat)
    (hlive : ∀ p ∈ bucket, ∃ node, h.deref p = some node) :
    (nodesOf h bucket).length = bucket.length := by
  induction bucket with
  | nil => rfl
  | cons p rest ih =>
    obtain ⟨node, hnode⟩ := hlive p (List.mem_cons_self _ _)
    have ih1 := ih (fun q hq => hlive q (List.mem_cons_of_mem _ hq))
    unfold nodesOf at ih1 ⊢
    simp [List.filterMap_cons, hnode, ih1]

/-- C13. `print` visits the buckets in index order and yields every stored entry exactly
once: in any reachable state the call completes and leaves the map unchanged; the lines
written are the lines of bucket 0, bucket 1, ... up to the last bucket followed by the
blank line; the (key, value) pairs among them are the buckets concatenated in index
order, each bucket in its stored order, which is one pair per stored pointer. -/
theorem print_enumerates_buckets [DecidableEq K] (hashFunction : K → Nat)
    (num_buckets : Nat) (m : ConcurrentHashMap K V)
    (hr : Reachable hashFunction num_buckets m) :
    ∃ lines, print m = .ok (m, lines)
      ∧ lines = (List.range num_buckets).flatMap (bucketLines m) ++ [Output.blank]
      ∧ pairsOf lines = (allEntries m).map (fun node => (node.key, node.value))
      ∧ allEntries m = m.buckets.flatMap (nodesOf m.heap)
      ∧ allEntries m = nodesOf m.heap (storedPointers m)
      ∧ (pairsOf lines).length = (storedPointers m).length := by
  have hinv := hr.inv
  have hpairs : pairsOf ((List.range num_buckets).flatMap (bucketLines m) ++ [Output.blank])
      = (allEntries m).map (fun node => (node.key, node.value)) := by
    rw [pairsOf_append, pairsOf_flatMap, allEntries, hinv.size_buckets]
    simp [pairsOf]
  refine ⟨_, print_eq hashFunction num_buckets m hinv, rfl, hpairs,
    allEntries_eq_flatMap m, allEntries_eq_nodesOf m, ?_⟩
  rw [hpairs, List.length_map, allEntries_eq_nodesOf]
  apply length_nodesOf
  intro p hp
  simp only [storedPointers, List.mem_flatten] at hp
  obtain ⟨bucket, hb, hpb⟩ := hp
  exact hinv.live bucket hb p hpb

theorem print_enumerates_buckets_witness :
    Reachable sampleHash 2 sampleMap
      ∧ ∃ lines, print sampleMap = .ok (sampleMap, lines)
          ∧ lines = (List.range 2).flatMap (bucketLines sampleMap) ++ [Output.blank]
          ∧ pairsOf lines = (allEntries sampleMap).map (fun node => (node.key, node.value))
          ∧ allEntries sampleMap = sampleMap.buckets.flatMap (nodesOf sampleMap.heap)
          ∧ allEntries sampleMap = nodesOf sampleMap.heap (storedPointers sampleMap)
          ∧ (pairsOf lines).length = (storedPointers sampleMap).length :=
  ⟨sampleMap_reachable,
    print_enumerates_buckets sampleHash 2 sampleMap sampleMap_reachable⟩

/-- Appending to one block of a concatenation over the indices below `n` is, up to
order, appending to the whole. -/
theorem flatMap_range_append_perm {α : Type} (n i : Nat) (hi : i < n) (f f1 : Nat → List α)
    (ys : List α) (hf : ∀ j, f1 j = if j = i then f j ++ ys else f j) :
    ((List.range n).flatMap f1).Perm ((List.range n).flatMap f ++ ys) := by
  induction n with
  | zero => omega
  | succ n ih =>
    rw [List.range_succ, List.flatMap_append, List.flatMap_append, List.flatMap_singleton,
      List.flatMap_singleton]
    by_cases hin : i = n
    · have hsame : (List.range n).flatMap f1 = (List.range n).flatMap f := by
        apply List.flatMap_congr
        intro j hj
        rw [List.mem_range] at hj
        rw [hf j, if_neg (by omega)]
      rw [hsame, hf n, if_pos hin.symm, List.append_assoc]
    · have hlt : i < n := by omega
      have hne : ¬ n = i := fun h => hin h.symm
      rw [hf n, if_neg hne]
      have h1 := (ih hlt).append_right (f n)
      refine h1.trans ?_
      rw [List.append_assoc, List.append_assoc]
      exact List.Perm.append_left _ List.perm_append_comm

/-- Filtering one block of a concatenation over the indices below `n` is filtering the
whole, when the other blocks pass the filter. -/
theorem flatMap_range_filter {α : Type} (n i : Nat) (f f1 : Nat → List α) (q : α → Bool)
    (hf : ∀ j, f1 j = if j = i then (f j).filter q else f j)
    (hq : ∀ j, j ≠ i → ∀ x ∈ f j, q x = true) :
    (List.range n).flatMap f1 = ((List.range n).flatMap f).filter q := by
  rw [List.filter_flatMap]
  apply List.flatMap_congr
  intro j _
  rw [hf j]
  split
  · rfl
  · rename_i hj
    exact (List.filter_eq_self.mpr (hq j hj)).symm

/-- Shrinking every block of a concatenation shrinks the whole. -/
theorem flatMap_sublist {α : Type} (l : List Nat) (f f1 : Nat → List α)
    (hf : ∀ j, (f1 j).Sublist (f j)) : (l.flatMap f1).Sublist (l.flatMap f) := by
  induction l with
  | nil => exact List.Sublist.refl _
  | cons j rest ih =>
    rw [List.flatMap_cons, List.flatMap_cons]
    exact (hf j).append ih

/-- The stored pointers are the buckets concatenated in index order. -/
theorem storedPointers_eq_range (m : ConcurrentHashMap K V) :
    storedPointers m = (List.range m.buckets.length).flatMap (bucketAt m) := by
  have h := flatMap_range_getD (fun b => b) m.buckets
  simp only [storedPointers, List.flatten_eq_flatMap]
  exact h.symm

/-- A stored pointer is live. -/
theorem storedPointers_live (hashFunction : K → Nat) (n : Nat) (m : ConcurrentHashMap K V)
    (hinv : Inv hashFunction n m) :
    ∀ p ∈ storedPointers m, ∃ node, m.heap.deref p = some node := by
  intro p hp
  simp only [storedPointers, List.mem_flatten] at hp
  obtain ⟨bucket, hb, hpb⟩ := hp
  exact hinv.live bucket hb p hpb

theorem owned_construct (n : Nat) (m : ConcurrentHashMap K V)
    (hm : construct n = .ok m) : Owned m := by
  simp only [construct, Except.ok.injEq] at hm
  subst hm
  refine ⟨?_, rfl⟩
  have hnil : (List.replicate n ([] : List Nat)).flatten = [] := by
    rw [List.flatten_eq_nil_iff]
    intro l hl
    exact List.eq_of_mem_replicate hl
  show (List.replicate n ([] : List Nat)).flatten.Nodup
  rw [hnil]
  exact List.nodup_nil

theorem owned_insert (hashFunction : K → Nat) (n : Nat) (m m1 : ConcurrentHashMap K V)
    (hinv : Inv hashFunction n m) (hown : Owned m) (key : K) (value : V)
    (hm : insert hashFunction m key value = .ok m1) : Owned m1 := by
  rcases Nat.eq_zero_or_pos n with h0 | hn
  · rw [insert_zero hashFunction m (by rw [hinv.size_buckets]; exact h0)] at hm
    cases hm
  obtain ⟨m2, hins, -, hheap, hlen, hb, -⟩ := insert_view hashFunction n m hinv hn key value
  rw [hins, Except.ok.injEq] at hm
  subst hm
  have hperm : (storedPointers m2).Perm (storedPointers m ++ [m.heap.cells.length]) := by
    rw [storedPointers_eq_range, storedPointers_eq_range, hlen]
    exact flatMap_range_append_perm _ (hashFunction key % n)
      (by rw [hinv.size_buckets]; exact Nat.mod_lt _ hn) _ _ _ hb
  refine ⟨hperm.nodup_iff.mpr ?_, by rw [hheap]; exact hown.none_deleted⟩
  rw [List.nodup_append]
  refine ⟨hown.nodup, List.nodup_singleton _, ?_⟩
  intro p hp hp2
  rw [List.mem_singleton] at hp2
  obtain ⟨node, hnode⟩ := storedPointers_live hashFunction n m hinv p hp
  have := Heap.deref_lt hnode
  omega

theorem owned_remove [DecidableEq K] (hashFunction : K → Nat) (n : Nat)
    (m m1 : ConcurrentHashMap K V) (hinv : Inv hashFunction n m) (hown : Owned m) (key : K)
    (hm : remove hashFunction m key = .ok m1) : Owned m1 := by
  rcases Nat.eq_zero_or_pos n with h0 | hn
  · rw [remove_zero hashFunction m (by rw [hinv.size_buckets]; exact h0)] at hm
    cases hm
  obtain ⟨m2, hrem, -, hheap, hlen, hb, -⟩ := remove_view hashFunction n m hinv hn key
  rw [hrem, Except.ok.injEq] at hm
  subst hm
  have hsub : (storedPointers m2).Sublist (storedPointers m) := by
    rw [storedPointers_eq_range, storedPointers_eq_range, hlen]
    apply flatMap_sublist
    intro j
    rw [hb j]
    split
    · exact List.filter_sublist _
    · exact List.Sublist.refl _
  exact ⟨hown.nodup.sublist hsub, by rw [hheap]; exact hown.none_deleted⟩

/-- Every reachable state satisfies the ownership facts. -/
theorem Reachable.owned [DecidableEq K] {hashFunction : K → Nat} {n : Nat}
    {m : ConcurrentHashMap K V} (hr : Reachable hashFunction n m) : Owned m := by
  induction hr with
  | construct hm => exact owned_construct n _ hm
  | insert key value hprev hm ih => exact owned_insert hashFunction n _ _ hprev.inv ih key value hm
  | get key value found out hprev hm ih =>
    rw [inv_get hashFunction n _ _ hprev.inv key value found out hm]; exact ih
  | remove key hprev hm ih => exact owned_remove hashFunction n _ _ hprev.inv ih key hm
  | print lines hprev hm ih =>
    rw [print_eq hashFunction n _ hprev.inv] at hm
    simp only [Except.ok.injEq, Prod.mk.injEq] at hm
    rw [← hm.1]; exact ih

/-- Reading the free store after `delete p`: the cell at `p` is gone, the others are as
before. -/
theorem deref_set_none (h : Heap K V) (p q : Nat) :
    ({ cells := h.cells.set p none, deleted := p :: h.deleted } : Heap K V).deref q
      = if q = p then none else h.deref q := by
  simp only [Heap.deref, List.getElem?_set]
  by_cases hqp : q = p
  · subst hqp
    by_cases hlt : q < h.cells.length
    · simp [hlt]
    · simp [hlt]
  · have hpq : ¬ p = q := fun h => hqp h.symm
    simp only [hpq, hqp, if_false]

/-- The inner loop of the destructor on live, pairwise different pointers: it completes,
empties the bucket, logs the pointers in list order and leaves the other cells alone. -/
theorem destroyBucket_eq (ps : List Nat) (h : Heap K V)
    (hlive : ∀ p ∈ ps, ∃ node, h.deref p = some node) (hnodup : ps.Nodup) :
    ∃ h1, destroyBucket h ps = .ok ([], h1)
      ∧ h1.deleted = ps.reverse ++ h.deleted
      ∧ h1.cells.length = h.cells.length
      ∧ ∀ q, h1.deref q = if q ∈ ps then none else h.deref q := by
  induction ps generalizing h with
  | nil => exact ⟨h, rfl, by simp, rfl, by simp⟩
  | cons p rest ih =>
    obtain ⟨node, hnode⟩ := hlive p (List.mem_cons_self _ _)
    rw [List.nodup_cons] at hnodup
    have hlive1 : ∀ q ∈ rest, ∃ node,
        ({ cells := h.cells.set p none, deleted := p :: h.deleted } : Heap K V).deref q
          = some node := by
      intro q hq
      rw [deref_set_none]
      have hqp : q ≠ p := fun hqp => hnodup.1 (hqp ▸ hq)
      simp only [hqp, if_false]
      exact hlive q (List.mem_cons_of_mem _ hq)
    obtain ⟨h1, hrun, hdel, hlen, hderef⟩ := ih _ hlive1 hnodup.2
    refine ⟨h1, ?_, ?_, ?_, ?_⟩
    · simp only [destroyBucket, Heap.delete, hnode, hrun]
    · rw [hdel]; simp
    · rw [hlen]; simp
    · intro q
      rw [hderef q, deref_set_none]
      by_cases hq : q ∈ rest
      · simp [hq]
      · by_cases hqp : q = p
        · simp [hqp]
        · simp [hq, hqp]

/-- The outer loop of the destructor from index `i` on: it completes, empties the
buckets from `i` on, keeps the buckets below `i` and the mutexes, and deletes the
pointers of the buckets from `i` on in index order. -/
theorem destroyLoop_eq (n : Nat) (remaining : Nat) (m : ConcurrentHashMap K V) (i : Nat)
    (hsize : m.buckets.length = n)
    (hmtx : m.mutexes = List.replicate n SharedMutex.unlocked)
    (hle : i + remaining = n)
    (hlive : ∀ p ∈ (List.range' i remaining).flatMap (bucketAt m),
      ∃ node, m.heap.deref p = some node)
    (hnodup : ((List.range' i remaining).flatMap (bucketAt m)).Nodup) :
    ∃ m1, destroyLoop m remaining i = .ok m1
      ∧ m1.buckets.length = n
      ∧ m1.mutexes = m.mutexes
      ∧ (∀ j, bucketAt m1 j = if i ≤ j then [] else bucketAt m j)
      ∧ m1.heap.deleted = ((List.range' i remaining).flatMap (bucketAt m)).reverse
          ++ m.heap.deleted
      ∧ m1.heap.cells.length = m.heap.cells.length
      ∧ ∀ q, m1.heap.deref q
          = if q ∈ (List.range' i remaining).flatMap (bucketAt m) then none
            else m.heap.deref q := by
  induction remaining generalizing m i with
  | zero =>
    refine ⟨m, rfl, hsize, rfl, ?_, by simp, rfl, by simp⟩
    intro j
    split
    · have : m.buckets[j]? = none := List.getElem?_eq_none (by omega)
      simp [bucketAt, this]
    · rfl
  | succ r ih =>
    have hlt : i < n := by omega
    have hlt2 : i < m.buckets.length := by omega
    have hb := getElem?_bucketAt m i hlt2
    rw [List.range'_succ, List.flatMap_cons] at hlive hnodup
    rw [List.nodup_append] at hnodup
    obtain ⟨h1, hrun, hdel, hlen, hderef⟩ := destroyBucket_eq (bucketAt m i) m.heap
      (fun p hp => hlive p (List.mem_append_left _ hp)) hnodup.1
    have hbk : ∀ j, bucketAt (⟨m.buckets.set i [], List.replicate n SharedMutex.unlocked, h1⟩ :
        ConcurrentHashMap K V) j = if j = i then [] else bucketAt m j := by
      intro j
      simp only [bucketAt]
      exact getD_set _ _ _ _ hlt2
    have hsame : (List.range' (i + 1) r).flatMap (bucketAt (⟨m.buckets.set i [], List.replicate n SharedMutex.unlocked, h1⟩ :
        ConcurrentHashMap K V)) = (List.range' (i + 1) r).flatMap (bucketAt m) := by
      apply List.flatMap_congr
      intro j hj
      rw [List.mem_range'_1] at hj
      rw [hbk j, if_neg (by omega)]
    obtain ⟨m1, hloop, hsize1, hmtx1, hbk1, hdel1, hlen1, hderef1⟩ :=
      ih ⟨m.buckets.set i [], List.replicate n SharedMutex.unlocked, h1⟩ (i + 1) (by simp [hsize]) rfl (by omega)
        (by
          rw [hsame]
          intro p hp
          show ∃ node, h1.deref p = some node
          rw [hderef p]
          have hnot : p ∉ bucketAt m i := fun hin => hnodup.2.2 hin hp
          simp only [hnot, if_false]
          exact hlive p (List.mem_append_right _ hp))
        (by rw [hsame]; exact hnodup.2.1)
    rw [hsame] at hdel1 hderef1
    refine ⟨m1, ?_, hsize1, ?_, ?_, ?_, ?_, ?_⟩
    · simp only [destroyLoop, hmtx, onMutex_lock_unlocked n _ hlt, hb, hrun,
        onMutex_unlock_locked n _ hlt, hloop]
    · rw [hmtx1, hmtx]
    · intro j
      rw [hbk1 j, hbk j]
      by_cases h1 : i + 1 ≤ j
      · simp [h1, show i ≤ j by omega]
      · by_cases h2 : j = i
        · simp [h2]
        · simp [h1, h2, show ¬ i ≤ j by omega]
    · rw [hdel1]
      show _ ++ h1.deleted = _
      rw [hdel, List.range'_succ, List.flatMap_cons, List.reverse_append, List.append_assoc]
    · rw [hlen1]; exact hlen
    · intro q
      rw [hderef1 q]
      show (if _ then none else h1.deref q) = _
      rw [hderef q]
      have hmem : q ∈ (List.range' i (r + 1)).flatMap (bucketAt m)
          ↔ q ∈ bucketAt m i ∨ q ∈ (List.range' (i + 1) r).flatMap (bucketAt m) := by
        rw [List.range'_succ, List.flatMap_cons, List.mem_append]
      by_cases hq1 : q ∈ bucketAt m i
      · have hq : q ∈ (List.range' i (r + 1)).flatMap (bucketAt m) := hmem.mpr (Or.inl hq1)
        simp only [hq, hq1, if_true, ite_self]
      · by_cases hq2 : q ∈ (List.range' (i + 1) r).flatMap (bucketAt m)
        · have hq : q ∈ (List.range' i (r + 1)).flatMap (bucketAt m) := hmem.mpr (Or.inr hq2)
          simp only [hq, hq2, if_true]
        · have hq : q ∉ (List.range' i (r + 1)).flatMap (bucketAt m) := fun h =>
            (hmem.mp h).elim hq1 hq2
          simp only [hq, hq1, hq2, if_false]

/-- C16. Teardown empties the map: on any reachable state the destructor completes;
afterwards every bucket is empty, and the nodes deleted are the nodes the buckets held
at the start, in bucket order: every pointer stored at the start was deleted exactly
once and is no longer live, and no other node was deleted or touched. -/
theorem destroy_empties_map [DecidableEq K] (hashFunction : K → Nat) (num_buckets : Nat)
    (m : ConcurrentHashMap K V) (hr : Reachable hashFunction num_buckets m) :
    ∃ m1, destroy m = .ok m1
      ∧ m1.buckets = List.replicate num_buckets []
      ∧ m1.heap.deleted = (storedPointers m).reverse
      ∧ (∀ p ∈ storedPointers m, m1.heap.deleted.count p = 1 ∧ m1.heap.deref p = none)
      ∧ (∀ p, p ∉ storedPointers m →
          m1.heap.deleted.count p = 0 ∧ m1.heap.deref p = m.heap.deref p)
      ∧ m1.heap.deallocations = (storedPointers m).length := by
  have hinv := hr.inv
  have hown := hr.owned
  have hsp : storedPointers m = (List.range' 0 num_buckets).flatMap (bucketAt m) := by
    rw [storedPointers_eq_range, hinv.size_buckets, List.range_eq_range']
  obtain ⟨m1, hrun, hsize1, -, hbk1, hdel1, -, hderef1⟩ :=
    destroyLoop_eq num_buckets num_buckets m 0 hinv.size_buckets hinv.mutexes_eq (by omega)
      (by rw [← hsp]; exact storedPointers_live hashFunction num_buckets m hinv)
      (by rw [← hsp]; exact hown.nodup)
  rw [← hsp] at hdel1 hderef1
  rw [hown.none_deleted, List.append_nil] at hdel1
  refine ⟨m1, ?_, ?_, hdel1, ?_, ?_, ?_⟩
  · simp only [destroy, hinv.size_buckets, hrun]
  · rw [List.eq_replicate_iff]
    refine ⟨hsize1, ?_⟩
    intro bucket hb
    obtain ⟨j, hj⟩ := List.mem_iff_getElem?.mp hb
    have := hbk1 j
    simp only [bucketAt, hj, Option.getD_some, Nat.zero_le, if_true] at this
    exact this
  · intro p hp
    refine ⟨?_, by rw [hderef1 p, if_pos hp]⟩
    rw [hdel1, List.count_reverse]
    exact List.count_eq_one_of_mem hown.nodup hp
  · intro p hp
    refine ⟨?_, by rw [hderef1 p, if_neg hp]⟩
    rw [hdel1, List.count_reverse]
    exact List.count_eq_zero_of_not_mem hp
  · simp [Heap.deallocations, hdel1]

theorem destroy_empties_map_witness :
    Reachable sampleHash 2 sampleMap ∧ storedPointers sampleMap = [3, 0, 1, 2]
      ∧ ∃ m1, destroy sampleMap = .ok m1
          ∧ m1.buckets = List.replicate 2 []
          ∧ m1.heap.deleted = (storedPointers sampleMap).reverse
          ∧ (∀ p ∈ storedPointers sampleMap,
              m1.heap.deleted.count p = 1 ∧ m1.heap.deref p = none)
          ∧ (∀ p, p ∉ storedPointers sampleMap →
              m1.heap.deleted.count p = 0 ∧ m1.heap.deref p = sampleMap.heap.deref p)
          ∧ m1.heap.deallocations = (storedPointers sampleMap).length :=
  ⟨sampleMap_reachable, rfl,
    destroy_empties_map sampleHash 2 sampleMap sampleMap_reachable⟩

theorem runCalls_append [DecidableEq K] (hashFunction : K → Nat) (m : ConcurrentHashMap K V)
    (calls : List (Call K V)) (call : Call K V) :
    runCalls hashFunction m (calls ++ [call])
      = match runCalls hashFunction m calls with
        | .error e => .error e
        | .ok m1 => applyCall hashFunction m1 call := by
  induction calls generalizing m with
  | nil =>
    simp only [List.nil_append, runCalls]
    cases applyCall hashFunction m call <;> rfl
  | cons c rest ih =>
    simp only [List.cons_append, runCalls]
    cases applyCall hashFunction m c with
    | error e => rfl
    | ok m1 => exact ih m1

theorem sinceLastRemove_cons [DecidableEq K] (key : K) (call : Call K V)
    (rest : List (Call K V)) :
    sinceLastRemove key (call :: rest)
      = if rest.any (isRemoveOf key) then sinceLastRemove key rest
        else if isRemoveOf key call then rest else call :: rest := rfl

theorem sinceLastRemove_append [DecidableEq K] (key : K) (calls : List (Call K V))
    (call : Call K V) :
    sinceLastRemove key (calls ++ [call])
      = if isRemoveOf key call then [] else sinceLastRemove key calls ++ [call] := by
  induction calls with
  | nil =>
    rw [List.nil_append, sinceLastRemove_cons]
    cases isRemoveOf key call <;> simp [sinceLastRemove]
  | cons c rest ih =>
    have hany : (rest ++ [call]).any (isRemoveOf key)
        = (rest.any (isRemoveOf key) || isRemoveOf key call) := by simp
    rw [List.cons_append, sinceLastRemove_cons, sinceLastRemove_cons, hany, ih]
    cases isRemoveOf key call <;> cases rest.any (isRemoveOf key) <;>
      cases isRemoveOf key c <;> simp

theorem earliestInsert_append [DecidableEq K] (key : K) (l1 l2 : List (Call K V)) :
    earliestInsert key (l1 ++ l2) = (earliestInsert key l1).or (earliestInsert key l2) := by
  induction l1 with
  | nil => simp [earliestInsert]
  | cons c rest ih =>
    cases c with
    | insert k value =>
      simp only [List.cons_append, earliestInsert]
      split
      · simp
      · exact ih
    | remove k =>
      simp only [List.cons_append, earliestInsert]
      exact ih

/-- What one more call does to the abstract result for a key. -/
theorem abstractGet_append [DecidableEq K] (key : K) (calls : List (Call K V))
    (call : Call K V) :
    abstractGet key (calls ++ [call])
      = match call with
        | Call.insert k value =>
          if k = key then (abstractGet key calls).or (some value) else abstractGet key calls
        | Call.remove k => if k = key then none else abstractGet key calls := by
  unfold abstractGet
  rw [sinceLastRemove_append]
  cases call with
  | insert k value =>
    simp only [isRemoveOf, Bool.false_eq_true, if_false, earliestInsert_append, earliestInsert]
    split <;> simp
  | remove k =>
    simp only [isRemoveOf, decide_eq_true_eq]
    split
    · rfl
    · simp [earliestInsert_append, earliestInsert]

theorem abstractEntries_append [DecidableEq K] (calls : List (Call K V)) (call : Call K V) :
    abstractEntries (calls ++ [call])
      = match call with
        | Call.insert key value => abstractEntries calls ++ [{ key := key, value := value }]
        | Call.remove key =>
          (abstractEntries calls).filter (fun node => !decide (node.key = key)) := by
  simp only [abstractEntries, List.foldl_append, List.foldl_cons, List.foldl_nil]

/-- Under the invariant an entry of bucket `i` routes to `i`. -/
theorem Inv.entries_routed {hashFunction : K → Nat} {n : Nat} {m : ConcurrentHashMap K V}
    (hinv : Inv hashFunction n m) (i : Nat) :
    ∀ node ∈ entriesAt m i, hashFunction node.key % n = i := by
  intro node hnode
  simp only [entriesAt, nodesOf, List.mem_filterMap] at hnode
  obtain ⟨p, hp, hderef⟩ := hnode
  by_cases hi : i < m.buckets.length
  · exact hinv.routed i _ (getElem?_bucketAt m i hi) p hp node hderef
  · have : m.buckets[i]? = none := List.getElem?_eq_none (by omega)
    simp [bucketAt, this] at hp

/-- The entries after `insert` are, up to order, the entries before and the new one. -/
theorem allEntries_insert (hashFunction : K → Nat) (n : Nat) (m m1 : ConcurrentHashMap K V)
    (hinv : Inv hashFunction n m) (hn : 0 < n) (key : K) (value : V)
    (hm : insert hashFunction m key value = .ok m1) :
    (allEntries m1).Perm (allEntries m ++ [{ key := key, value := value }]) := by
  obtain ⟨m2, hins, -, -, hlen, -, hent⟩ := insert_view hashFunction n m hinv hn key value
  rw [hins, Except.ok.injEq] at hm
  subst hm
  simp only [allEntries, hlen]
  exact flatMap_range_append_perm _ (hashFunction key % n)
    (by rw [hinv.size_buckets]; exact Nat.mod_lt _ hn) _ _ _ hent

/-- The entries after `remove` are the entries before without those with the key. -/
theorem allEntries_remove [DecidableEq K] (hashFunction : K → Nat) (n : Nat)
    (m m1 : ConcurrentHashMap K V) (hinv : Inv hashFunction n m) (hn : 0 < n) (key : K)
    (hm : remove hashFunction m key = .ok m1) :
    allEntries m1 = (allEntries m).filter (fun node => !decide (node.key = key)) := by
  obtain ⟨m2, hrem, -, -, hlen, -, hent⟩ := remove_view hashFunction n m hinv hn key
  rw [hrem, Except.ok.injEq] at hm
  subst hm
  simp only [allEntries, hlen]
  apply flatMap_range_filter _ (hashFunction key % n) _ _ _ hent
  intro j hj node hnode
  have hroute := hinv.entries_routed j node hnode
  have : ¬ node.key = key := fun h => hj (by rw [← hroute, h])
  simp [this]

theorem entriesAt_construct (n : Nat) (m : ConcurrentHashMap K V)
    (hm : construct n = .ok m) (j : Nat) : entriesAt m j = [] := by
  simp only [construct, Except.ok.injEq] at hm
  subst hm
  simp only [entriesAt, bucketAt, nodesOf, List.filterMap_eq_nil_iff]
  intro p hp
  by_cases hj : j < n
  · simp [List.getElem?_replicate, hj] at hp
  · simp [List.getElem?_replicate, hj] at hp

theorem allEntries_construct (n : Nat) (m : ConcurrentHashMap K V)
    (hm : construct n = .ok m) : allEntries m = [] := by
  simp only [allEntries, List.flatMap_eq_nil_iff]
  intro j _
  exact entriesAt_construct n m hm j

/-- Refinement: after any sequence of calls on a fresh map with `n > 0` buckets the run
completes, the first match for every key is what the abstract map gives, and the
entries are, up to order, the abstract content. -/
theorem runCalls_refines [DecidableEq K] (hashFunction : K → Nat) (n : Nat) (hn : 0 < n)
    (m0 : ConcurrentHashMap K V) (h0 : construct n = .ok m0) (calls : List (Call K V)) :
    ∃ m, runCalls hashFunction m0 calls = .ok m
      ∧ Reachable hashFunction n m
      ∧ (∀ key, ((entriesAt m (hashFunction key % n)).find?
            (fun node => decide (node.key = key))).map (fun node => node.value)
          = abstractGet key calls)
      ∧ (allEntries m).Perm (abstractEntries calls) := by
  induction calls using List.reverseRecOn with
  | nil =>
    refine ⟨m0, rfl, Reachable.construct h0, ?_, ?_⟩
    · intro key
      rw [entriesAt_construct n m0 h0]
      rfl
    · rw [allEntries_construct n m0 h0]
      exact List.Perm.refl _
  | append_singleton calls call ih =>
    obtain ⟨m, hrun, hreach, hget, hall⟩ := ih
    have hinv := hreach.inv
    rw [runCalls_append, hrun, abstractEntries_append]
    cases call with
    | insert k value =>
      obtain ⟨m1, hins, -, -, -, -, hent⟩ := insert_view hashFunction n m hinv hn k value
      refine ⟨m1, hins, Reachable.insert k value hreach hins, ?_,
        (allEntries_insert hashFunction n m m1 hinv hn k value hins).trans
          (hall.append_right _)⟩
      intro key
      rw [abstractGet_append, hent, ← hget key]
      by_cases hk : k = key
      · subst hk
        simp only [if_true, List.find?_append]
        cases List.find? (fun node => decide (node.key = k))
          (entriesAt m (hashFunction k % n)) <;> simp
      · simp only [hk, if_false]
        split
        · simp [List.find?_append, hk]
        · rfl
    | remove k =>
      obtain ⟨m1, hrem, -, -, -, -, hent⟩ := remove_view hashFunction n m hinv hn k
      refine ⟨m1, hrem, Reachable.remove k hreach hrem, ?_, ?_⟩
      · intro key
        rw [abstractGet_append, hent, ← hget key]
        by_cases hk : k = key
        · subst hk
          simp only [if_true]
          have hnone : List.find? (fun node => decide (node.key = k))
              ((entriesAt m (hashFunction k % n)).filter
                (fun node => !decide (node.key = k))) = none := by
            apply find?_none_of_absent
            intro node hnode
            simpa using (List.mem_filter.mp hnode).2
          rw [hnone]
          rfl
        · simp only [hk, if_false]
          split
          · rw [find?_filter_other k key hk]
          · rfl
      · rw [allEntries_remove hashFunction n m m1 hinv hn k hrem]
        exact hall.filter _

/-- The result of `get` read off the first match of the routed bucket. -/
theorem get_of_first_match [DecidableEq K] (hashFunction : K → Nat) (n : Nat)
    (m : ConcurrentHashMap K V) (hinv : Inv hashFunction n m) (hn : 0 < n) (key : K)
    (old : V) (r : Option V)
    (hr : ((entriesAt m (hashFunction key % n)).find?
      (fun node => decide (node.key = key))).map (fun node => node.value) = r) :
    get hashFunction m key old = .ok (m, r.isSome, r.getD old) := by
  rw [get_eq hashFunction n m hinv hn key old, ← hr]
  cases (entriesAt m (hashFunction key % n)).find? (fun node => decide (node.key = key)) <;> rfl

/-- The pairs `print` writes are the entries of the map. -/
theorem pairsOf_print (hashFunction : K → Nat) (n : Nat) (m : ConcurrentHashMap K V)
    (hinv : Inv hashFunction n m) :
    pairsOf ((List.range n).flatMap (bucketLines m) ++ [Output.blank])
      = (allEntries m).map (fun node => (node.key, node.value)) := by
  rw [pairsOf_append, pairsOf_flatMap, allEntries, hinv.size_buckets]
  simp [pairsOf]

/-- A run that completes splits into its first call and the rest. -/
theorem runCalls_cons_ok [DecidableEq K] (hashFunction : K → Nat)
    (m m2 : ConcurrentHashMap K V) (call : Call K V) (rest : List (Call K V))
    (h : runCalls hashFunction m (call :: rest) = .ok m2) :
    ∃ m1, applyCall hashFunction m call = .ok m1 ∧ runCalls hashFunction m1 rest = .ok m2 := by
  simp only [runCalls] at h
  cases hc : applyCall hashFunction m call with
  | error e => rw [hc] at h; cases h
  | ok m1 => rw [hc] at h; exact ⟨m1, rfl, h⟩

/-- C17. Refinement to an abstract first-insert-wins map: for `num_buckets > 0`, any
hash function and any finite sequence of `insert` and `remove` calls on a freshly
constructed map, the run completes and `get(key)` returns the value of the earliest
`insert(key, ·)` after the last `remove(key)` of the sequence, and not-found (output
untouched) when there is none; the same holds for every other hash function and
positive bucket count, so the result of `get` depends on neither. -/
theorem get_refines_abstract_map [DecidableEq K] (hashFunction : K → Nat)
    (num_buckets : Nat) (hn : 0 < num_buckets) (calls : List (Call K V)) (key : K) (old : V) :
    (∃ m0 m, construct num_buckets = .ok m0 ∧ runCalls hashFunction m0 calls = .ok m
        ∧ get hashFunction m key old
            = .ok (m, (abstractGet key calls).isSome, (abstractGet key calls).getD old))
      ∧ ∀ (otherHash : K → Nat) (otherCount : Nat), 0 < otherCount →
          ∃ m0 m, construct otherCount = .ok m0 ∧ runCalls otherHash m0 calls = .ok m
            ∧ get otherHash m key old
                = .ok (m, (abstractGet key calls).isSome, (abstractGet key calls).getD old) := by
  have main : ∀ (hf : K → Nat) (n : Nat), 0 < n →
      ∃ m0 m, construct n = .ok m0 ∧ runCalls hf m0 calls = .ok m
        ∧ get hf m key old
            = .ok (m, (abstractGet key calls).isSome, (abstractGet key calls).getD old) := by
    intro hf n hpos
    obtain ⟨m, hrun, hreach, hget, -⟩ := runCalls_refines hf n hpos _ rfl calls
    exact ⟨_, m, rfl, hrun, get_of_first_match hf n m hreach.inv hpos key old _ (hget key)⟩
  exact ⟨main hashFunction num_buckets hn, main⟩

theorem get_refines_abstract_map_witness :
    0 < 2
      ∧ abstractGet 1 [Call.insert 1 10, Call.insert 3 30, Call.insert 1 11, Call.remove 1,
          Call.insert 1 12, Call.insert 1 (13 : Nat)] = some 12
      ∧ ∃ m0 m, construct 2 = .ok m0
          ∧ runCalls sampleHash m0 [Call.insert 1 10, Call.insert 3 30, Call.insert 1 11,
              Call.remove 1, Call.insert 1 12, Call.insert 1 13] = .ok m
          ∧ get sampleHash m 1 0 = .ok (m, true, 12) :=
  ⟨by decide, by decide,
    (get_refines_abstract_map sampleHash 2 (by decide)
      [Call.insert 1 10, Call.insert 3 30, Call.insert 1 11, Call.remove 1,
        Call.insert 1 12, Call.insert 1 13] 1 0).1⟩

/-- C12. End-to-end scenario, for every hash function on strings: on a map constructed
with two buckets the five inserts complete, `get("lucy")` returns `true` with 5, then
`remove("lucy")` completes, `get("lucy")` returns `false` with the output untouched, and
`print` writes, as its (key, value) pairs and in some order, exactly
("abcd", 1), ("efgh", 2), ("ihkk", 3) and ("jerry", 4). -/
theorem end_to_end_scenario (hashFunction : String → Nat) (old : Int) :
    ∃ (m0 m1 m2 m3 m4 m5 m6 : ConcurrentHashMap String Int) (lines : List (Output String Int)),
      construct 2 = .ok m0
        ∧ insert hashFunction m0 "abcd" 1 = .ok m1
        ∧ insert hashFunction m1 "efgh" 2 = .ok m2
        ∧ insert hashFunction m2 "ihkk" 3 = .ok m3
        ∧ insert hashFunction m3 "jerry" 4 = .ok m4
        ∧ insert hashFunction m4 "lucy" 5 = .ok m5
        ∧ get hashFunction m5 "lucy" old = .ok (m5, true, 5)
        ∧ remove hashFunction m5 "lucy" = .ok m6
        ∧ get hashFunction m6 "lucy" old = .ok (m6, false, old)
        ∧ print m6 = .ok (m6, lines)
        ∧ (pairsOf lines).Perm [("abcd", 1), ("efgh", 2), ("ihkk", 3), ("jerry", 4)] := by
  obtain ⟨m5, hrun5, hreach5, hget5, -⟩ := runCalls_refines hashFunction 2 (by decide) _ rfl
    [Call.insert "abcd" (1 : Int), Call.insert "efgh" 2, Call.insert "ihkk" 3,
      Call.insert "jerry" 4, Call.insert "lucy" 5]
  obtain ⟨m6, hrun6, hreach6, hget6, hall6⟩ := runCalls_refines hashFunction 2 (by decide) _ rfl
    ([Call.insert "abcd" (1 : Int), Call.insert "efgh" 2, Call.insert "ihkk" 3,
      Call.insert "jerry" 4, Call.insert "lucy" 5] ++ [Call.remove "lucy"])
  rw [runCalls_append, hrun5] at hrun6
  obtain ⟨m1, h1, hrest⟩ := runCalls_cons_ok hashFunction _ _ _ _ hrun5
  obtain ⟨m2, h2, hrest⟩ := runCalls_cons_ok hashFunction _ _ _ _ hrest
  obtain ⟨m3, h3, hrest⟩ := runCalls_cons_ok hashFunction _ _ _ _ hrest
  obtain ⟨m4, h4, hrest⟩ := runCalls_cons_ok hashFunction _ _ _ _ hrest
  obtain ⟨m5a, h5, hrest⟩ := runCalls_cons_ok hashFunction _ _ _ _ hrest
  simp only [runCalls, Except.ok.injEq] at hrest
  subst hrest
  have hg5 := get_of_first_match hashFunction 2 m5a hreach5.inv (by decide) "lucy" old _
    (hget5 "lucy")
  have hg6 := get_of_first_match hashFunction 2 m6 hreach6.inv (by decide) "lucy" old _
    (hget6 "lucy")
  have ha5 : abstractGet "lucy" [Call.insert "abcd" (1 : Int), Call.insert "efgh" 2,
      Call.insert "ihkk" 3, Call.insert "jerry" 4, Call.insert "lucy" 5] = some 5 := by
    decide
  have ha6 : abstractGet "lucy" ([Call.insert "abcd" (1 : Int), Call.insert "efgh" 2,
      Call.insert "ihkk" 3, Call.insert "jerry" 4, Call.insert "lucy" 5]
        ++ [Call.remove "lucy"]) = none := by
    decide
  have he6 : abstractEntries ([Call.insert "abcd" (1 : Int), Call.insert "efgh" 2,
      Call.insert "ihkk" 3, Call.insert "jerry" 4, Call.insert "lucy" 5]
        ++ [Call.remove "lucy"])
      = [⟨"abcd", 1⟩, ⟨"efgh", 2⟩, ⟨"ihkk", 3⟩, ⟨"jerry", 4⟩] := by
    decide
  rw [ha5] at hg5
  rw [ha6] at hg6
  rw [he6] at hall6
  refine ⟨_, m1, m2, m3, m4, m5a, m6, _, rfl, h1, h2, h3, h4, h5, hg5, hrun6, hg6,
    print_eq hashFunction 2 m6 hreach6.inv, ?_⟩
  rw [pairsOf_print hashFunction 2 m6 hreach6.inv]
  exact hall6.map _

/-- Dropping the recorded accesses of `insertMonitored` gives `insert`, on every state. -/
theorem insertMonitored_erase (hashFunction : K → Nat) (m : ConcurrentHashMap K V) (key : K)
    (value : V) :
    (insertMonitored hashFunction m key value).map Prod.fst
      = insert hashFunction m key value := by
  unfold insertMonitored insert
  simp only []
  repeat' split
  all_goals simp_all [Except.map]

/-- Dropping the recorded accesses of `getMonitored` gives `get`, on every state. -/
theorem getMonitored_erase [DecidableEq K] (hashFunction : K → Nat)
    (m : ConcurrentHashMap K V) (key : K) (value : V) :
    (getMonitored hashFunction m key value).map Prod.fst = get hashFunction m key value := by
  unfold getMonitored get
  simp only []
  repeat' split
  all_goals simp_all [Except.map]

/-- Dropping the recorded accesses of `removeMonitored` gives `remove`, on every state. -/
theorem removeMonitored_erase [DecidableEq K] (hashFunction : K → Nat)
    (m : ConcurrentHashMap K V) (key : K) :
    (removeMonitored hashFunction m key).map Prod.fst = remove hashFunction m key := by
  unfold removeMonitored remove
  simp only []
  repeat' split
  all_goals simp_all [Except.map]

/-- Dropping the recorded accesses of the monitored loop of `print` gives the loop of
`print`. -/
theorem printLoopMonitored_erase (m : ConcurrentHashMap K V) (remaining i : Nat) :
    (printLoopMonitored m remaining i).map Prod.fst = printLoop m remaining i := by
  induction remaining generalizing m i with
  | zero => rfl
  | succ r ih =>
    unfold printLoopMonitored printLoop
    simp only []
    split
    · rfl
    · split
      · rfl
      · split
        · rfl
        · split
          · rfl
          · rename_i released _
            rw [← ih { m with mutexes := released } (i + 1)]
            cases printLoopMonitored { m with mutexes := released } r (i + 1) with
            | error e => rfl
            | ok res => rfl

/-- Dropping the recorded accesses of `printMonitored` gives `print`, on every state. -/
theorem printMonitored_erase (m : ConcurrentHashMap K V) :
    (printMonitored m).map Prod.fst = print m := by
  unfold printMonitored print
  rw [← printLoopMonitored_erase]
  cases printLoopMonitored m m.buckets.length 0 with
  | error e => rfl
  | ok res => rfl

/-- Dropping the recorded accesses of the monitored loop of the destructor gives the
loop of the destructor. -/
theorem destroyLoopMonitored_erase (m : ConcurrentHashMap K V) (remaining i : Nat) :
    (destroyLoopMonitored m remaining i).map Prod.fst = destroyLoop m remaining i := by
  induction remaining generalizing m i with
  | zero => rfl
  | succ r ih =>
    unfold destroyLoopMonitored destroyLoop
    simp only []
    split
    · rfl
    · split
      · rfl
      · split
        · rfl
        · split
          · rfl
          · rw [← ih]
            cases destroyLoopMonitored _ r (i + 1) with
            | error e => rfl
            | ok res => rfl

/-- Dropping the recorded accesses of `destroyMonitored` gives the destructor, on every
state. -/
theorem destroyMonitored_erase (m : ConcurrentHashMap K V) :
    (destroyMonitored m).map Prod.fst = destroy m :=
  destroyLoopMonitored_erase m m.buckets.length 0

/-- From a completed plain call to the completed monitored call. -/
theorem monitored_of_erase {α : Type} (monitored : Except Fault (α × List Access))
    (plain : Except Fault α) (res : α) (herase : monitored.map Prod.fst = plain)
    (hplain : plain = .ok res) : ∃ accesses, monitored = .ok (res, accesses) := by
  cases monitored with
  | error e => rw [← herase] at hplain; cases hplain
  | ok pair =>
    rw [← herase] at hplain
    simp only [Except.map, Except.ok.injEq] at hplain
    exact ⟨pair.2, by rw [← hplain]⟩

/-- What a completed `insertMonitored` recorded, on every state: one modification of the
routed bucket, observed on the mutex vector the lock operation returned. -/
theorem insertMonitored_accesses (hashFunction : K → Nat) (m m1 : ConcurrentHashMap K V)
    (key : K) (value : V) (accesses : List Access)
    (h : insertMonitored hashFunction m key value = .ok (m1, accesses)) :
    ∃ index mi locked, modSize (hashFunction key) m.buckets.length = .ok index
      ∧ getMutex hashFunction m key = .ok mi
      ∧ onMutex SharedMutex.lock m.mutexes mi = .ok locked
      ∧ accesses = [observe locked index AccessKind.write] := by
  unfold insertMonitored at h
  simp only [] at h
  repeat' split at h
  all_goals simp_all

/-- What a completed `removeMonitored` recorded, on every state. -/
theorem removeMonitored_accesses [DecidableEq K] (hashFunction : K → Nat)
    (m m1 : ConcurrentHashMap K V) (key : K) (accesses : List Access)
    (h : removeMonitored hashFunction m key = .ok (m1, accesses)) :
    ∃ index mi locked, modSize (hashFunction key) m.buckets.length = .ok index
      ∧ getMutex hashFunction m key = .ok mi
      ∧ onMutex SharedMutex.lock m.mutexes mi = .ok locked
      ∧ accesses = [observe locked index AccessKind.write] := by
  unfold removeMonitored at h
  simp only [] at h
  repeat' split at h
  all_goals simp_all

/-- What a completed `getMonitored` recorded, on every state: one read of the routed
bucket for the scan and one more when an entry was found, observed on the mutex vector
the lock operation returned. -/
theorem getMonitored_accesses [DecidableEq K] (hashFunction : K → Nat)
    (m : ConcurrentHashMap K V) (key : K) (value : V)
    (res : ConcurrentHashMap K V × Bool × V) (accesses : List Access)
    (h : getMonitored hashFunction m key value = .ok (res, accesses)) :
    ∃ index mi locked, modSize (hashFunction key) m.buckets.length = .ok index
      ∧ getMutex hashFunction m key = .ok mi
      ∧ onMutex SharedMutex.lock_shared m.mutexes mi = .ok locked
      ∧ accesses = List.replicate (if res.2.1 then 2 else 1)
          (observe locked index AccessKind.read) := by
  unfold getMonitored at h
  simp only [] at h
  repeat' split at h
  all_goals simp_all
  all_goals (obtain ⟨h1, h2⟩ := h; subst h1; subst h2; simp [List.replicate])
/-- What a completed monitored loop of `print` recorded, when no lock is held at its
start: per index one read of that bucket, observed with the mutex of that index held in
shared mode. -/
theorem printLoopMonitored_accesses (n : Nat) (m : ConcurrentHashMap K V)
    (hmtx : m.mutexes = List.replicate n SharedMutex.unlocked) (remaining i : Nat)
    (hle : i + remaining ≤ n) (res : ConcurrentHashMap K V × List (Output K V))
    (accesses : List Access) (h : printLoopMonitored m remaining i = .ok (res, accesses)) :
    accesses = (List.range' i remaining).map
      (fun j => ({ bucket := j, kind := AccessKind.read,
                   guard := some SharedMutex.lockedShared } : Access)) := by
  induction remaining generalizing i res accesses with
  | zero =>
    simp only [printLoopMonitored, Except.ok.injEq, Prod.mk.injEq] at h
    simp [← h.2]
  | succ r ih =>
    have hlt : i < n := by omega
    have hm : ({ m with mutexes := List.replicate n SharedMutex.unlocked } :
        ConcurrentHashMap K V) = m := by
      rw [← hmtx]
    have hobs : observe ((List.replicate n SharedMutex.unlocked).set i
        SharedMutex.lockedShared) i AccessKind.read
        = { bucket := i, kind := AccessKind.read, guard := some SharedMutex.lockedShared } := by
      simp [observe, hlt]
    simp only [printLoopMonitored, hmtx, onMutex_lock_shared_unlocked n _ hlt,
      onMutex_unlock_shared_locked n _ hlt, hm, hobs] at h
    split at h
    · cases h
    · split at h
      · cases h
      · split at h
        · cases h
        · rename_i hrec
          have := ih (i + 1) (by omega) _ _ hrec
          simp only [Except.ok.injEq, Prod.mk.injEq] at h
          rw [← h.2, this, List.range'_succ, List.map_cons]
          rfl

/-- What a completed monitored loop of the destructor recorded, when no lock is held at
its start: per index one modification of that bucket, observed with the mutex of that
index held exclusively; no lock is held at its end. -/
theorem destroyLoopMonitored_accesses (n : Nat) (remaining : Nat)
    (m m1 : ConcurrentHashMap K V) (i : Nat)
    (hmtx : m.mutexes = List.replicate n SharedMutex.unlocked)
    (hle : i + remaining ≤ n) (accesses : List Access)
    (h : destroyLoopMonitored m remaining i = .ok (m1, accesses)) :
    accesses = (List.range' i remaining).map
        (fun j => ({ bucket := j, kind := AccessKind.write,
                     guard := some SharedMutex.lockedExclusive } : Access))
      ∧ m1.mutexes = List.replicate n SharedMutex.unlocked := by
  induction remaining generalizing m m1 i accesses with
  | zero =>
    simp only [destroyLoopMonitored, Except.ok.injEq, Prod.mk.injEq] at h
    refine ⟨by simp [← h.2], by rw [← h.1]; exact hmtx⟩
  | succ r ih =>
    have hlt : i < n := by omega
    have hobs : observe ((List.replicate n SharedMutex.unlocked).set i
        SharedMutex.lockedExclusive) i AccessKind.write
        = { bucket := i, kind := AccessKind.write,
            guard := some SharedMutex.lockedExclusive } := by
      simp [observe, hlt]
    simp only [destroyLoopMonitored, hmtx, onMutex_lock_unlocked n _ hlt,
      onMutex_unlock_locked n _ hlt, hobs] at h
    split at h
    · cases h
    · split at h
      · cases h
      · split at h
        · cases h
        · rename_i hrec
          obtain ⟨hacc, hfinal⟩ := ih _ _ (i + 1) rfl (by omega) _ hrec
          simp only [Except.ok.injEq, Prod.mk.injEq] at h
          refine ⟨?_, by rw [← h.1]; exact hfinal⟩
          rw [← h.2, hacc, List.range'_succ, List.map_cons]
          rfl

/-- C15. Lock discipline, call by call: on a map built with `num_buckets > 0`, in any
reachable state, no mutex is held before a call; the index `getMutex` chooses is the
index of the bucket the call touches, `hash(key) % num_buckets`; every access a call
makes to a bucket is observed, on the mutex vector as it is at that moment, with the
mutex of that bucket's index held in the mode the call needs: `insert` and `remove`
modify the routed bucket with its mutex held exclusively, `get` reads it (once for the
scan, once more for the value found) with its mutex held in shared mode, `print` reads
bucket `j` with mutex `j` held in shared mode and the destructor modifies bucket `j`
with mutex `j` held exclusively, for `j` from 0 up in order; the monitored calls return
what the plain calls return, and no mutex is held after a call. -/
theorem lock_discipline [DecidableEq K] (hashFunction : K → Nat) (num_buckets : Nat)
    (hn : 0 < num_buckets) (m : ConcurrentHashMap K V)
    (hr : Reachable hashFunction num_buckets m) (key : K) (value old : V) :
    m.mutexes = List.replicate num_buckets SharedMutex.unlocked
      ∧ modSize (hashFunction key) m.buckets.length = .ok (hashFunction key % num_buckets)
      ∧ getMutex hashFunction m key = .ok (hashFunction key % num_buckets)
      ∧ (∃ m1, insert hashFunction m key value = .ok m1
          ∧ insertMonitored hashFunction m key value
              = .ok (m1, [{ bucket := hashFunction key % num_buckets, kind := AccessKind.write,
                            guard := some SharedMutex.lockedExclusive }])
          ∧ m1.mutexes = List.replicate num_buckets SharedMutex.unlocked)
      ∧ (∃ m1, remove hashFunction m key = .ok m1
          ∧ removeMonitored hashFunction m key
              = .ok (m1, [{ bucket := hashFunction key % num_buckets, kind := AccessKind.write,
                            guard := some SharedMutex.lockedExclusive }])
          ∧ m1.mutexes = List.replicate num_buckets SharedMutex.unlocked)
      ∧ (∃ found out, get hashFunction m key old = .ok (m, found, out)
          ∧ getMonitored hashFunction m key old
              = .ok ((m, found, out), List.replicate (if found then 2 else 1)
                  { bucket := hashFunction key % num_buckets, kind := AccessKind.read,
                    guard := some SharedMutex.lockedShared }))
      ∧ (∃ lines, print m = .ok (m, lines)
          ∧ printMonitored m
              = .ok ((m, lines), (List.range num_buckets).map
                  (fun j => ({ bucket := j, kind := AccessKind.read,
                               guard := some SharedMutex.lockedShared } : Access))))
      ∧ (∃ m1, destroy m = .ok m1
          ∧ destroyMonitored m
              = .ok (m1, (List.range num_buckets).map
                  (fun j => ({ bucket := j, kind := AccessKind.write,
                               guard := some SharedMutex.lockedExclusive } : Access)))
          ∧ m1.mutexes = List.replicate num_buckets SharedMutex.unlocked) := by
  have hinv := hr.inv
  have hown := hr.owned
  have hn0 : num_buckets ≠ 0 := by omega
  have hlt : hashFunction key % num_buckets < num_buckets := Nat.mod_lt _ hn
  have hmod : modSize (hashFunction key) m.buckets.length
      = .ok (hashFunction key % num_buckets) := by
    simp [modSize, hinv.size_buckets, hn0]
  have hmtx : getMutex hashFunction m key = .ok (hashFunction key % num_buckets) := by
    simp [getMutex, modSize, hinv.mutexes_eq, hn0]
  have hlock := onMutex_lock_unlocked num_buckets _ hlt
  have hlockS := onMutex_lock_shared_unlocked num_buckets _ hlt
  refine ⟨hinv.mutexes_eq, hmod, hmtx, ?_, ?_, ?_, ?_, ?_⟩
  · have hplain := insert_eq hashFunction num_buckets m hinv hn key value
    obtain ⟨acc, hacc⟩ :=
      monitored_of_erase _ _ _ (insertMonitored_erase hashFunction m key value) hplain
    obtain ⟨index, mi, locked, h1, h2, h3, h4⟩ :=
      insertMonitored_accesses hashFunction m _ key value acc hacc
    rw [hmod, Except.ok.injEq] at h1
    rw [hmtx, Except.ok.injEq] at h2
    subst h1 h2
    rw [hinv.mutexes_eq, hlock, Except.ok.injEq] at h3
    subst h3 h4
    refine ⟨_, hplain, ?_, hinv.mutexes_eq⟩
    rw [hacc]
    simp [observe, hlt]
  · have hplain := remove_eq hashFunction num_buckets m hinv hn key
    obtain ⟨acc, hacc⟩ :=
      monitored_of_erase _ _ _ (removeMonitored_erase hashFunction m key) hplain
    obtain ⟨index, mi, locked, h1, h2, h3, h4⟩ :=
      removeMonitored_accesses hashFunction m _ key acc hacc
    rw [hmod, Except.ok.injEq] at h1
    rw [hmtx, Except.ok.injEq] at h2
    subst h1 h2
    rw [hinv.mutexes_eq, hlock, Except.ok.injEq] at h3
    subst h3 h4
    refine ⟨_, hplain, ?_, hinv.mutexes_eq⟩
    rw [hacc]
    simp [observe, hlt]
  · have hplain : ∃ found out, get hashFunction m key old = .ok (m, found, out) := by
      rw [get_eq hashFunction num_buckets m hinv hn key old]
      split
      · exact ⟨_, _, rfl⟩
      · exact ⟨_, _, rfl⟩
    obtain ⟨found, out, hget⟩ := hplain
    obtain ⟨acc, hacc⟩ :=
      monitored_of_erase _ _ _ (getMonitored_erase hashFunction m key old) hget
    obtain ⟨index, mi, locked, h1, h2, h3, h4⟩ :=
      getMonitored_accesses hashFunction m key old _ acc hacc
    rw [hmod, Except.ok.injEq] at h1
    rw [hmtx, Except.ok.injEq] at h2
    subst h1 h2
    rw [hinv.mutexes_eq, hlockS, Except.ok.injEq] at h3
    subst h3 h4
    refine ⟨found, out, hget, ?_⟩
    rw [hacc]
    simp [observe, hlt]
  · have hplain := print_eq hashFunction num_buckets m hinv
    obtain ⟨acc, hacc⟩ := monitored_of_erase _ _ _ (printMonitored_erase m) hplain
    refine ⟨_, hplain, ?_⟩
    rw [hacc]
    unfold printMonitored at hacc
    split at hacc
    · cases hacc
    · rename_i hloop
      simp only [Except.ok.injEq, Prod.mk.injEq] at hacc
      have := printLoopMonitored_accesses num_buckets m hinv.mutexes_eq _ 0
        (by rw [hinv.size_buckets]; omega) _ _ hloop
      rw [← hacc.2, this, hinv.size_buckets, List.range_eq_range']
  · have hsp : storedPointers m = (List.range' 0 num_buckets).flatMap (bucketAt m) := by
      rw [storedPointers_eq_range, hinv.size_buckets, List.range_eq_range']
    obtain ⟨m1, hrun, -⟩ :=
      destroyLoop_eq num_buckets num_buckets m 0 hinv.size_buckets hinv.mutexes_eq (by omega)
        (by rw [← hsp]; exact storedPointers_live hashFunction num_buckets m hinv)
        (by rw [← hsp]; exact hown.nodup)
    have hplain : destroy m = .ok m1 := by simp only [destroy, hinv.size_buckets, hrun]
    obtain ⟨acc, hacc⟩ := monitored_of_erase _ _ _ (destroyMonitored_erase m) hplain
    have hacc2 := hacc
    unfold destroyMonitored at hacc2
    rw [hinv.size_buckets] at hacc2
    obtain ⟨h3, hfinal⟩ := destroyLoopMonitored_accesses num_buckets num_buckets m m1 0
      hinv.mutexes_eq (by omega) acc hacc2
    refine ⟨m1, hplain, ?_, hfinal⟩
    rw [hacc, h3, List.range_eq_range']

theorem lock_discipline_witness :
    0 < 2 ∧ Reachable sampleHash 2 sampleMap
      ∧ getMutex sampleHash sampleMap 3 = .ok 1
      ∧ (∃ m1, insert sampleHash sampleMap 3 31 = .ok m1
          ∧ insertMonitored sampleHash sampleMap 3 31
              = .ok (m1, [{ bucket := 1, kind := AccessKind.write,
                            guard := some SharedMutex.lockedExclusive }])
          ∧ m1.mutexes = [SharedMutex.unlocked, SharedMutex.unlocked])
      ∧ (∃ found out, get sampleHash sampleMap 3 0 = .ok (sampleMap, found, out)
          ∧ getMonitored sampleHash sampleMap 3 0
              = .ok ((sampleMap, found, out), List.replicate (if found then 2 else 1)
                  { bucket := 1, kind := AccessKind.read,
                    guard := some SharedMutex.lockedShared }))
      ∧ observe sampleMap.mutexes 1 AccessKind.write
          = { bucket := 1, kind := AccessKind.write, guard := some SharedMutex.unlocked } := by
  have h := lock_discipline sampleHash 2 (by decide) sampleMap sampleMap_reachable 3 31 0
  exact ⟨by decide, sampleMap_reachable, h.2.2.1, h.2.2.2.1, h.2.2.2.2.2.1, rfl⟩

end ConcurrentHashMap
